import Mathlib

/-!
Verification development for the taskman-obsidian plugin core.

Text is modelled as `List Char` (JS strings; all inputs of interest are
BMP text, so one `Char` per UTF-16 code unit).  JS `Date` values are
modelled by the civil triple `Ymd` together with day/month arithmetic that
reproduces the normalisation `new Date(y, m, d)` performs.  Each Lean
definition is a direct translation of the correspondingly named function
of the source (src/src/editor.ts, src/src/hash.ts, src/src/parser.ts,
src/src/icsExport.ts, src/src/writeQueue.ts, src/unnamed/part_004 the
natural-language date resolver).
-/

namespace Taskman

abbrev Str := List Char

/-- JS `\s` / `String.prototype.trim` whitespace (the code points the
regexes in the source can meet in practice). -/
def isWs (c : Char) : Bool :=
  c = ' ' ∨ c = '\t' ∨ c = '\n' ∨ c = '\r' ∨ c = '\x0b' ∨ c = '\x0c' ∨
  c = '\u00a0' ∨ c = '\u1680' ∨ ('\u2000' ≤ c ∧ c ≤ '\u200a') ∨
  c = '\u2028' ∨ c = '\u2029' ∨ c = '\u202f' ∨ c = '\u205f' ∨
  c = '\u3000' ∨ c = '\ufeff'

def isDigitCh (c : Char) : Bool := '0' ≤ c ∧ c ≤ '9'

/-- JS `\w` word character. -/
def isWordCh (c : Char) : Bool :=
  ('a' ≤ c ∧ c ≤ 'z') ∨ ('A' ≤ c ∧ c ≤ 'Z') ∨ isDigitCh c ∨ c = '_'

def lowerEq (a b : Char) : Bool := a.toLower = b.toLower

/-- Case-insensitive literal match: consumes `kw` from the front of `s`,
returning the rest. -/
def matchLit : Str → Str → Option Str
  | [], s => some s
  | _ :: _, [] => none
  | k :: ks, c :: cs => if lowerEq c k then matchLit ks cs else none

/-- `String.prototype.trimEnd`. -/
def trimEnd (s : Str) : Str := (s.reverse.dropWhile isWs).reverse

def trimStart (s : Str) : Str := s.dropWhile isWs

/-- `String.prototype.trim`. -/
def trim (s : Str) : Str := trimEnd (trimStart s)

/-- `.replace(/\s+/g, " ")`: every maximal whitespace run becomes one
space.  The flag records whether we are inside a run already emitted. -/
def collapseWsAux : Bool → Str → Str
  | _, [] => []
  | inRun, c :: cs =>
    if isWs c then
      if inRun then collapseWsAux true cs else ' ' :: collapseWsAux true cs
    else c :: collapseWsAux false cs

def collapseWs (s : Str) : Str := collapseWsAux false s

/-- `text.replace(m, " ").replace(/\s+/g, " ").trim()` — the clean-up every
extractor of the source applies to the remaining text. -/
def cleanRemaining (s : Str) : Str := trim (collapseWs s)

/-- First index at which `pat` occurs as a substring of `s`, if any. -/
def findSubIdx (pat : Str) : Str → Option Nat
  | [] => if pat = [] then some 0 else none
  | s@(_ :: rest) =>
    if pat.isPrefixOf s then some 0
    else (findSubIdx pat rest).map (· + 1)

def containsSub (s pat : Str) : Bool := (findSubIdx pat s).isSome

/-- JS `s.replace(pat, repl)` with a *string* pattern: replace the first
occurrence of the substring `pat` (no-op when absent). -/
def replaceFirstSub (s pat repl : Str) : Str :=
  match findSubIdx pat s with
  | none => s
  | some i => s.take i ++ repl ++ s.drop (i + pat.length)

/-- `content.split("\n")`. -/
def splitNl (s : Str) : List Str := s.splitOn '\n'

/-- `lines.join("\n")`. -/
def joinNl (ls : List Str) : Str := (ls.intersperse ['\n']).flatten

/-- Digits to the `Nat` they denote (`parseInt` on a `\d+` match). -/
def natOfDigits (ds : Str) : Nat :=
  ds.foldl (fun acc c => acc * 10 + (c.toNat - '0'.toNat)) 0

/-- Decimal digits of a `Nat` (fuelled; fuel 32 covers all values the
model meets).  Mirrors JS number-to-string for integers. -/
def toDecAux : Nat → Nat → Str → Str
  | 0, _, acc => acc
  | fuel + 1, n, acc =>
    if n < 10 then Char.ofNat (n + '0'.toNat) :: acc
    else toDecAux fuel (n / 10) (Char.ofNat (n % 10 + '0'.toNat) :: acc)

def toDec (n : Nat) : Str := toDecAux 32 n []

def toDecInt (i : Int) : Str :=
  if i < 0 then '-' :: toDec i.natAbs else toDec i.toNat

/-- `String(n).padStart(2, "0")`. -/
def pad2 (n : Nat) : Str :=
  let d := toDec n
  if d.length < 2 then '0' :: d else d

end Taskman

namespace Taskman

/-! ### Civil calendar model of JS `Date` (local midnight values only) -/

structure Ymd where
  y : Int
  m : Nat
  d : Nat
deriving DecidableEq, Repr

def isLeap (y : Int) : Bool := y % 4 = 0 ∧ (y % 100 ≠ 0 ∨ y % 400 = 0)

def daysInMonth (y : Int) (m : Nat) : Nat :=
  if m = 2 then (if isLeap y then 29 else 28)
  else if m = 4 ∨ m = 6 ∨ m = 9 ∨ m = 11 then 30
  else 31

def nextDay (t : Ymd) : Ymd :=
  if t.d < daysInMonth t.y t.m then ⟨t.y, t.m, t.d + 1⟩
  else if t.m < 12 then ⟨t.y, t.m + 1, 1⟩
  else ⟨t.y + 1, 1, 1⟩

def prevDay (t : Ymd) : Ymd :=
  if t.d > 1 then ⟨t.y, t.m, t.d - 1⟩
  else if t.m > 1 then ⟨t.y, t.m - 1, daysInMonth t.y (t.m - 1)⟩
  else ⟨t.y - 1, 12, 31⟩

def addDaysN (n : Nat) (t : Ymd) : Ymd := Nat.rec t (fun _ ih => nextDay ih) n

def subDaysN (n : Nat) (t : Ymd) : Ymd := Nat.rec t (fun _ ih => prevDay ih) n

/-- `date.setDate(date.getDate() + n)` for possibly negative `n`. -/
def addDays (n : Int) (t : Ymd) : Ymd :=
  if 0 ≤ n then addDaysN n.toNat t else subDaysN (-n).toNat t

/-- Days before month `m` within year `y` (m in 1..12). -/
def daysBeforeMonth (y : Int) (m : Nat) : Nat :=
  (List.range (m - 1)).foldl (fun acc i => acc + daysInMonth y (i + 1)) 0

/-- Rata-die style day count; only used through `dayOfWeek`. -/
def toDayNumber (t : Ymd) : Int :=
  365 * (t.y - 1) + (t.y - 1).fdiv 4 - (t.y - 1).fdiv 100 + (t.y - 1).fdiv 400
    + (daysBeforeMonth t.y t.m : Int) + (t.d - 1 : Int)

/-- JS `Date.prototype.getDay`: 0 = Sunday .. 6 = Saturday.
Calibrated so that 1970-01-01 ↦ 4 (a Thursday). -/
def dayOfWeek (t : Ymd) : Int := (toDayNumber t + 1).emod 7

/-- Resolve a (month, day-of-month) pair the way `new Date(y, m0, d)` does
when `1 ≤ d ≤ 31` and `1 ≤ m ≤ 12`: a day past the end of the month spills
into the following month. -/
def normDay (y : Int) (m : Nat) (d : Nat) : Ymd :=
  if d ≤ daysInMonth y m then ⟨y, m, d⟩
  else
    let d' := d - daysInMonth y m
    if m < 12 then ⟨y, m + 1, d'⟩ else ⟨y + 1, 1, d'⟩

/-- `date.setMonth(date.getMonth() + k)`: move `k` months forward keeping
the day-of-month, then normalise overflow. -/
def addMonths (k : Nat) (t : Ymd) : Ymd :=
  let total := t.m - 1 + k
  normDay (t.y + (total / 12 : Nat)) (total % 12 + 1) t.d

/-- `new Date(y, mIdx, d)` for an `Int` month index (0-based) and an `Int`
day, including the 1900-offset quirk for two-digit year arguments. -/
def jsMkDate (y : Int) (mIdx : Int) (d : Int) : Ymd :=
  let y1 : Int := if 0 ≤ y ∧ y ≤ 99 then y + 1900 else y
  let y2 : Int := y1 + mIdx.fdiv 12
  let m2 : Nat := (mIdx.emod 12).toNat + 1
  addDays (d - 1) ⟨y2, m2, 1⟩

/-- `formatDate` of src/src/editor.ts: `YYYY-MM-DD`. -/
def formatDate (t : Ymd) : Str :=
  toDecInt t.y ++ '-' :: pad2 t.m ++ '-' :: pad2 t.d

/-- `formatDateYmd` of the date resolver (same output as `formatDate`). -/
def formatDateYmd (t : Ymd) : Str := formatDate t

/-- `formatDateCompact` of the date resolver: `YYYYMMDD`. -/
def formatDateCompact (t : Ymd) : Str := toDecInt t.y ++ pad2 t.m ++ pad2 t.d

/-- Chronological order on civil dates, as JS `<` on `Date` values. -/
def ymdLt (a b : Ymd) : Bool :=
  a.y < b.y ∨ (a.y = b.y ∧ (a.m < b.m ∨ (a.m = b.m ∧ a.d < b.d)))

end Taskman

namespace Taskman

/-! ### A small matcher framework for the source's regular expressions

All date/token regexes of the source have the shape
`(?:^|\s)(CORE)(?:\s|$)` with a case-insensitive CORE.  A `Pat` consumes
a prefix of the given suffix and returns the number of characters
consumed plus a payload; alternation with the JS engine's backtracking is
expressed by writing each alternative with its full continuation. -/

def Pat (alpha : Type) : Type := Str -> Option (Nat × alpha)

instance : Monad Pat where
  pure a := fun _ => some (0, a)
  bind p f := fun s =>
    match p s with
    | none => none
    | some (n, a) =>
      match f a (s.drop n) with
      | none => none
      | some (m, b) => some (n + m, b)

def pOr {alpha : Type} (p q : Pat alpha) : Pat alpha := fun s =>
  match p s with
  | some r => some r
  | none => q s

def pFail {alpha : Type} : Pat alpha := fun _ => none

def pAlts {alpha : Type} (ps : List (Pat alpha)) : Pat alpha :=
  ps.foldr pOr pFail

/-- Case-insensitive literal. -/
def pLit (kw : Str) : Pat Unit := fun s =>
  (matchLit kw s).map (fun _ => (kw.length, ()))

/-- `\s+`, greedy. -/
def pWs1 : Pat Unit := fun s =>
  let n := (s.takeWhile isWs).length
  if n = 0 then none else some (n, ())

/-- `\d+`, greedy; payload is the digit run. -/
def pDigits : Pat Str := fun s =>
  let run := s.takeWhile isDigitCh
  if run = [] then none else some (run.length, run)

/-- The trailing `(?:\s|$)` boundary, as a zero-width test (the matched
whitespace character is accounted for by the generic scanner). -/
def bdryOk : Str -> Bool
  | [] => true
  | c :: _ => isWs c

def pBdry : Pat Unit := fun s => if bdryOk s then some (0, ()) else none

/-- `\d{1,2}` followed by the continuation `k`, with the JS backtracking
order: two digits are preferred, one digit is retried on failure. -/
def pD12Then {alpha : Type} (k : Nat -> Pat alpha) : Pat alpha := fun s =>
  match s with
  | a :: b :: rest =>
    if isDigitCh a then
      if isDigitCh b then
        match k (natOfDigits [a, b]) rest with
        | some (n, x) => some (n + 2, x)
        | none =>
          match k (natOfDigits [a]) (b :: rest) with
          | some (n, x) => some (n + 1, x)
          | none => none
      else
        match k (natOfDigits [a]) (b :: rest) with
        | some (n, x) => some (n + 1, x)
        | none => none
    else none
  | [a] =>
    if isDigitCh a then
      match k (natOfDigits [a]) [] with
      | some (n, x) => some (n + 1, x)
      | none => none
    else none
  | [] => none

/-- `\d{4}` (exactly four digits). -/
def pD4 : Pat Nat := fun s =>
  let four := s.take 4
  if four.length = 4 ∧ four.all isDigitCh then some (4, natOfDigits four)
  else none

/-- `s?` immediately followed by the `(?:\s|$)` boundary, with
backtracking: with the `s` first, without it second. -/
def pOptSBdry : Pat Unit := fun s =>
  match s with
  | [] => some (0, ())
  | c :: rest =>
    if lowerEq c 's' ∧ bdryOk rest then some (1, ())
    else if isWs c then some (0, ())
    else none

/-- Try the pattern `(?:^|\s)(core)(?:\s|$)` at the current position
(`atStart` marks index 0).  On success returns the length of the whole
match (`match[0]`), trailing boundary whitespace included. -/
def patHere {alpha : Type} (core : Pat alpha) (atStart : Bool) (s : Str) :
    Option (Nat × alpha) :=
  let finish : Nat -> Str -> Nat := fun pre rest =>
    match rest with
    | [] => pre
    | c :: _ => if isWs c then pre + 1 else pre
  let viaCaret : Option (Nat × alpha) :=
    if atStart then
      match core s with
      | some (n, a) =>
        if bdryOk (s.drop n) then some (finish n (s.drop n), a) else none
      | none => none
    else none
  match viaCaret with
  | some r => some r
  | none =>
    match s with
    | c :: rest =>
      if isWs c then
        match core rest with
        | some (n, a) =>
          if bdryOk (rest.drop n) then
            some (finish (1 + n) (rest.drop n), a)
          else none
        | none => none
      else none
    | [] => none

/-- Leftmost match of the pattern in `s`: start index and `match[0]`
length, plus the payload. -/
def findPatFrom {alpha : Type} (core : Pat alpha) :
    Nat -> Bool -> Str -> Option (Nat × Nat × alpha)
  | i, atStart, s =>
    match patHere core atStart s with
    | some (len, a) => some (i, len, a)
    | none =>
      match s with
      | [] => none
      | _ :: rest => findPatFrom core (i + 1) false rest

def findPat {alpha : Type} (core : Pat alpha) (s : Str) :
    Option (Nat × Nat × alpha) :=
  findPatFrom core 0 true s

end Taskman

namespace Taskman

/-! ### Natural-language date resolver (src/unnamed/part_004) -/

def DAY_NAMES : List Str :=
  ["sunday".toList, "monday".toList, "tuesday".toList, "wednesday".toList,
   "thursday".toList, "friday".toList, "saturday".toList]

def DAY_ABBREVS : List Str :=
  ["sun".toList, "mon".toList, "tue".toList, "wed".toList, "thu".toList,
   "fri".toList, "sat".toList]

def MONTH_NAMES : List Str :=
  ["january".toList, "february".toList, "march".toList, "april".toList,
   "may".toList, "june".toList, "july".toList, "august".toList,
   "september".toList, "october".toList, "november".toList,
   "december".toList]

def MONTH_ABBREVS : List Str :=
  ["jan".toList, "feb".toList, "mar".toList, "apr".toList, "may".toList,
   "jun".toList, "jul".toList, "aug".toList, "sep".toList, "oct".toList,
   "nov".toList, "dec".toList]

def lowerStr (s : Str) : Str := s.map Char.toLower

/-- JS `Array.prototype.indexOf` (−1 when absent). -/
def jsIndexOfStr : List Str → Str → Int
  | [], _ => -1
  | a :: rest, x =>
    if a = x then 0
    else
      let r := jsIndexOfStr rest x
      if r = -1 then -1 else r + 1

def getEndOfWeek (t : Ymd) : Ymd :=
  let daysUntilSunday : Int := 7 - dayOfWeek t
  addDays (if daysUntilSunday = 7 then 0 else daysUntilSunday) t

/-- `new Date(y, month + 1, 0)`: last day of the current month. -/
def getEndOfMonth (t : Ymd) : Ymd := jsMkDate t.y (t.m : Int) 0

/-- The day-name lookup of `getNextDayOfWeek`: full names first, falling
back to the first three letters against the abbreviations (−1 when both
fail). -/
def targetDowOf (dayName : Str) : Int :=
  let targetDow0 := jsIndexOfStr DAY_NAMES (lowerStr dayName)
  if targetDow0 = -1 then jsIndexOfStr DAY_ABBREVS ((lowerStr dayName).take 3)
  else targetDow0

/-- `getNextDayOfWeek` of the resolver; `today` stands for `getToday()`. -/
def getNextDayOfWeek (dayName : Str) (forceNext : Bool) (today : Ymd) :
    Ymd :=
  let todayDow := dayOfWeek today
  let targetDow := targetDowOf dayName
  let daysAhead0 : Int := targetDow - todayDow
  let daysAhead :=
    if forceNext then
      let a1 := if daysAhead0 ≤ 0 then daysAhead0 + 7 else daysAhead0
      let a2 := a1 + 7
      let a3 := a2 - 7
      if a3 ≤ 0 then a3 + 7 else a3
    else
      if daysAhead0 ≤ 0 then daysAhead0 + 7 else daysAhead0
  addDays daysAhead today

/-- `parseMonthDay` of the resolver. -/
def parseMonthDay (today : Ymd) (monthStr : Str) (day : Nat)
    (year : Option Nat) : Option Ymd :=
  let ml := lowerStr monthStr
  let m0 := jsIndexOfStr MONTH_NAMES ml
  let month := if m0 = -1 then jsIndexOfStr MONTH_ABBREVS (ml.take 3) else m0
  if month = -1 then none
  else
    let ty0 : Int := match year with | some yy => (yy : Int) | none => today.y
    let targetYear : Int :=
      match year with
      | some _ => ty0
      | none =>
        let candidate := jsMkDate ty0 month (day : Int)
        if ymdLt candidate today then ty0 + 1 else ty0
    let date := jsMkDate targetYear month (day : Int)
    if ((date.m : Int) - 1 ≠ month) ∨ ((date.d : Int) ≠ (day : Int)) then none
    else some date

/-- Payload-producing cores of the resolver's ordered pattern list.  The
outer `Option` of `Pat` is regex match/failure; the payload is the parse
callback's result (`none` = the callback returned null, which makes the
resolver move on to the next pattern without rescanning this one). -/
def dayNameCore (today : Ymd) (pre : Option Str) (forceNext : Bool) :
    Pat (Option Ymd) :=
  pAlts (DAY_NAMES.map (fun nm => do
    match pre with
    | some kw => do
      pLit kw
      pWs1
    | none => pure ()
    pLit nm
    pBdry
    pure (some (getNextDayOfWeek nm forceNext today))))

def monthWords : List Str := MONTH_NAMES ++ MONTH_ABBREVS

def monthDayCore (today : Ymd) (withYear : Bool) : Pat (Option Ymd) :=
  pAlts (monthWords.map (fun mw => do
    pLit mw
    pWs1
    pD12Then (fun day => do
      if withYear then do
        pWs1
        let yy ← pD4
        pBdry
        pure (parseMonthDay today mw day (some yy))
      else do
        pBdry
        pure (parseMonthDay today mw day none))))

def dayMonthCore (today : Ymd) (withYear : Bool) : Pat (Option Ymd) :=
  pD12Then (fun day => do
    pWs1
    pAlts (monthWords.map (fun mw => do
      pLit mw
      if withYear then do
        pWs1
        let yy ← pD4
        pBdry
        pure (parseMonthDay today mw day (some yy))
      else do
        pBdry
        pure (parseMonthDay today mw day none))))

def kwCore (kws : List Str) (result : Ymd) : Pat (Option Ymd) := do
  match kws with
  | [] => pure ()
  | k0 :: rest =>
    pLit k0
    rest.forM (fun k => do
      pWs1
      pLit k)
  pBdry
  pure (some result)

def inNCore (unitKw : Str) (mk : Nat -> Ymd) : Pat (Option Ymd) := do
  pLit "in".toList
  pWs1
  let ds ← pDigits
  pWs1
  pLit unitKw
  pOptSBdry
  pure (some (mk (natOfDigits ds)))

/-- The resolver's ordered natural-language pattern list. -/
def nlPatterns (today : Ymd) : List (Pat (Option Ymd)) :=
  [ kwCore ["today".toList] today,
    kwCore ["tomorrow".toList] (addDays 1 today),
    kwCore ["yesterday".toList] (addDays (-1) today),
    kwCore ["next".toList, "week".toList] (addDays 7 today),
    kwCore ["next".toList, "month".toList] (addMonths 1 today),
    kwCore ["end".toList, "of".toList, "week".toList] (getEndOfWeek today),
    kwCore ["end".toList, "of".toList, "month".toList] (getEndOfMonth today),
    inNCore "day".toList (fun n => addDaysN n today),
    inNCore "week".toList (fun n => addDaysN (n * 7) today),
    inNCore "month".toList (fun n => addMonths n today),
    dayNameCore today (some "next".toList) true,
    dayNameCore today (some "this".toList) false,
    dayNameCore today none false,
    monthDayCore today false,
    monthDayCore today true,
    dayMonthCore today false,
    dayMonthCore today true ]

/-- The 8-digit `YYYYMMDD` core: digits plus payload. -/
def y8Core : Pat (Nat × Nat × Nat) := fun s =>
  let run8 := s.take 8
  if run8.length = 8 ∧ run8.all isDigitCh ∧ bdryOk (s.drop 8) then
    some (8, (natOfDigits (run8.take 4), natOfDigits ((run8.drop 4).take 2),
              natOfDigits (run8.drop 6)))
  else none

/-- Remaining text after removing `match[0]`:
`trimmed.replace(m, " ").replace(/\s+/g, " ").trim()`. -/
def removeMatch (trimmed : Str) (i len : Nat) : Str :=
  cleanRemaining (replaceFirstSub trimmed ((trimmed.drop i).take len) [' '])

def tryNlPatterns (trimmed : Str) : List (Pat (Option Ymd)) ->
    Option Ymd × Str
  | [] => (none, trimmed)
  | p :: rest =>
    match findPat p trimmed with
    | some (i, len, some dt) => (some dt, removeMatch trimmed i len)
    | some (_, _, none) => tryNlPatterns trimmed rest
    | none => tryNlPatterns trimmed rest

/-- `parseNaturalDate` of src/unnamed/part_004; `today` stands for the
wall-clock `getToday()`. -/
def parseNaturalDate (today : Ymd) (text : Str) : Option Ymd × Str :=
  let trimmed := trim text
  match findPat y8Core trimmed with
  | some (i, len, (yy, mm, dd)) =>
    let dt := jsMkDate (yy : Int) ((mm : Int) - 1) (dd : Int)
    if dt.y = (yy : Int) ∧ (dt.m : Int) - 1 = (mm : Int) - 1 ∧
        (dt.d : Int) = (dd : Int) then
      (some dt, removeMatch trimmed i len)
    else tryNlPatterns trimmed (nlPatterns today)
  | none => tryNlPatterns trimmed (nlPatterns today)

end Taskman

namespace Taskman

/-! ### Hashing primitive (src/src/hash.ts) -/

/-- `ToInt32`: the signed 32-bit value of a bit pattern below `2 ^ 32`. -/
def toInt32 (n : Nat) : Int :=
  if n < 2 ^ 31 then (n : Int) else (n : Int) - 2 ^ 32

/-- How many low bits IEEE binary64 rounding drops from an integer of
magnitude `a` (53-bit significand); fuelled halving loop, exact for
every `a < 2 ^ (53 + fuel)`. -/
def dblDropBits : Nat → Nat → Nat
  | 0, _ => 0
  | fuel + 1, a => if a < 2 ^ 53 then 0 else dblDropBits fuel (a / 2) + 1

/-- Round `a` to a multiple of the power of two `g`, half to even. -/
def roundHalfEven (a g : Nat) : Nat :=
  let q := a / g
  let r := a % g
  if 2 * r < g then q * g
  else if g < 2 * r then (q + 1) * g
  else if q % 2 = 0 then q * g else (q + 1) * g

/-- Round an integer to the nearest IEEE binary64 value (ties to even),
exact for magnitudes below `2 ^ 117`. -/
def roundDbl (v : Int) : Int :=
  let a := v.natAbs
  let g := 2 ^ dblDropBits 64 a
  let r := roundHalfEven a g
  if v < 0 then -(r : Int) else (r : Int)

/-- One round of FNV-1a 32-bit: `hash ^= code; hash = (hash * 0x01000193) >>> 0`.
`h` is the accumulator's `>>> 0` bit pattern; `^=` coerces it with
`ToInt32`, so the JS number entering the multiplication is the signed
32-bit value.  Its product with `0x01000193` reaches magnitude `2 ^ 55`
and is IEEE-double rounded *before* `>>> 0` truncates it back to
`[0, 2 ^ 32)`. -/
def fnvStep (h : Nat) (c : Nat) : Nat :=
  (roundDbl (toInt32 (h ^^^ c) * 16777619) % 2 ^ 32).toNat

/-- `fnv1a32` over the string's UTF-16 code units, before hex formatting. -/
def fnv1a32Nat (codes : List Nat) : Nat := codes.foldl fnvStep 0x811c9dc5

/-- `n.toString(16)` for a natural number (fuelled division loop). -/
def toHexAux : Nat → Nat → Str → Str
  | 0, _, acc => acc
  | fuel + 1, n, acc =>
    if n < 16 then Nat.digitChar n :: acc
    else toHexAux fuel (n / 16) (Nat.digitChar (n % 16) :: acc)

def toHex (n : Nat) : Str := toHexAux 16 n []

/-- `n.toString(16).padStart(8, "0")`. -/
def toHexPad8 (n : Nat) : Str :=
  let ds := toHex n
  List.replicate (8 - ds.length) '0' ++ ds

/-- `fnv1a32` of src/src/hash.ts (input as UTF-16 code units). -/
def fnv1a32 (codes : List Nat) : Str := toHexPad8 (fnv1a32Nat codes)

/-- `charCodeAt` sequence of a (BMP) string. -/
def strCodes (s : Str) : List Nat := s.map Char.toNat

def fnv1a32Str (s : Str) : Str := fnv1a32 (strCodes s)

/-! ### Stable-identity metadata comment (src/src/parser.ts) -/

def isNlCh (c : Char) : Bool :=
  c = '\n' ∨ c = '\r' ∨ c = ' ' ∨ c = ' '

/-- Tail of the lazy `.*?-->` part of `/\s*<!--todo:.*?-->\s*$/`: some
`-->` occurrence is followed by whitespace only, with no line terminator
crossed before it. -/
def metaClose : Str → Bool
  | [] => false
  | s@(c :: rest) =>
    ("-->".toList.isPrefixOf s && (s.drop 3).all isWs) ||
    (!isNlCh c && metaClose rest)

/-- Whether `/\s*<!--todo:.*?-->\s*$/i` matches starting here. -/
def metaTailMatches (t : Str) : Bool :=
  match matchLit "<!--todo:".toList (trimStart t) with
  | some rest => metaClose rest
  | none => false

/-- Leftmost start of the trailing-comment match, if any. -/
def metaStartIdx : Str → Option Nat
  | [] => none
  | s@(_ :: rest) =>
    if metaTailMatches s then some 0 else (metaStartIdx rest).map (· + 1)

/-- `stripTodoMeta`: remove the trailing metadata comment, then `trimEnd`. -/
def stripTodoMeta (line : Str) : Str :=
  trimEnd (match metaStartIdx line with
           | some i => line.take i
           | none => line)

/-- `^- \[( |x|X)\]` (case-sensitive, as in the source). -/
def checkHead : Str → Option (Char × Str)
  | '-' :: ' ' :: '[' :: c :: ']' :: rest =>
    if c = ' ' ∨ c = 'x' ∨ c = 'X' then some (c, rest) else none
  | _ => none

/-- `normalizeForMatch` of src/src/hash.ts. -/
def normalizeForMatch (line : Str) : Str :=
  let noComment :=
    trim (match metaStartIdx line with
          | some i => line.take i
          | none => line)
  let normalizedCheckbox :=
    match checkHead noComment with
    | some (_, rest) => '-' :: ' ' :: '[' :: ' ' :: ']' :: rest
    | none => noComment
  lowerStr (trim (collapseWs normalizedCheckbox))

/-- Parsed `<!--todo:id=…;v=…[;done=…]-->` metadata. -/
structure TodoMeta where
  id : Str
  v : Nat
  done : Option Str
deriving DecidableEq, Repr

def isIdCh (c : Char) : Bool :=
  isDigitCh c ∨ ('a' ≤ c.toLower ∧ c.toLower ≤ 'z')

/-- Try `/<!--todo:id=([a-z0-9]+);v=(\d+)(?:;done=([0-9-]+))?-->/i` at the
start of `s` (greedy character classes with the engine's backtracking at
the closing `-->`). -/
def metaAt (s : Str) : Option TodoMeta :=
  match matchLit "<!--todo:id=".toList s with
  | none => none
  | some r1 =>
    let idRun := r1.takeWhile isIdCh
    if idRun = [] then none
    else
      match matchLit ";v=".toList (r1.drop idRun.length) with
      | none => none
      | some r2 =>
        let vRun := r2.takeWhile isDigitCh
        if vRun = [] then none
        else
          let v := if natOfDigits vRun = 0 then 1 else natOfDigits vRun
          let r3 := r2.drop vRun.length
          let withDone : Option Str :=
            match matchLit ";done=".toList r3 with
            | none => none
            | some r4 =>
              let dRun := r4.takeWhile (fun c => isDigitCh c || c = '-')
              let closeOk : Bool :=
                match r4.drop dRun.length with
                | '>' :: _ => true
                | _ => false
              if 3 ≤ dRun.length ∧ dRun.drop (dRun.length - 2) = ['-', '-'] ∧
                  closeOk = true then
                some (dRun.take (dRun.length - 2))
              else none
          match withDone with
          | some d => some ⟨idRun, v, some d⟩
          | none =>
            match matchLit "-->".toList r3 with
            | some _ => some ⟨idRun, v, none⟩
            | none => none

/-- `parseTodoMeta`: leftmost metadata-comment match anywhere in the line. -/
def parseTodoMeta : Str → Option TodoMeta
  | [] => none
  | s@(_ :: rest) =>
    match metaAt s with
    | some m => some m
    | none => parseTodoMeta rest

/-- `formatTodoMeta` (the `done` field is emitted only when truthy). -/
def formatTodoMeta (meta : TodoMeta) : Str :=
  "<!--todo:id=".toList ++ meta.id ++ ";v=".toList ++ toDec meta.v ++
  (match meta.done with
   | some d => if d = [] then [] else ";done=".toList ++ d
   | none => []) ++
  "-->".toList

/-- `isTodoLineCandidate`. -/
def isTodoLineCandidate (line : Str) : Bool :=
  let t := trim line
  (checkHead t).isSome ||
  (match matchLit "todo".toList t with
   | some rest =>
     match rest with
     | [] => true
     | c :: _ => !isWordCh c
   | none => false)

end Taskman

namespace Taskman

/-! ### Inline token extractors (src/src/parser.ts) -/

/-- Core of `/(?:^|\s)(!!!|!!|!)(?:\s|$)/`; payload = mark count. -/
def prioCore : Pat Nat :=
  pAlts
    [do pLit "!!!".toList; pBdry; pure 3,
     do pLit "!!".toList; pBdry; pure 2,
     do pLit "!".toList; pBdry; pure 1]

def startsWaitingOrBlocked (r : Str) : Bool :=
  (matchLit "waiting".toList r).isSome || (matchLit "blocked".toList r).isSome

def bangKw (t : Str) : Bool :=
  (match matchLit "!!!".toList t with
   | some r => startsWaitingOrBlocked r
   | none => false) ||
  (match matchLit "!!".toList t with
   | some r => startsWaitingOrBlocked r
   | none => false) ||
  (match matchLit "!".toList t with
   | some r => startsWaitingOrBlocked r
   | none => false)

/-- `/^(\s)?(!!!|!!|!)(waiting|blocked)/i` applied to the line suffix. -/
def bangGuard : Str → Bool
  | [] => false
  | t@(c :: rest) => if isWs c then bangKw rest else bangKw t

/-- `parsePriority`. -/
def parsePriority (text : Str) : Nat × Str :=
  match findPat prioCore text with
  | none => (0, text)
  | some (i, len, marks) =>
    if bangGuard (text.drop i) then (0, text)
    else (marks, cleanRemaining (text.take i ++ text.drop (i + len)))

inductive TaskStatus
  | active
  | waiting
  | blocked
deriving DecidableEq, Repr

/-- `\S+` (one or more non-whitespace characters), greedy. -/
def pNonWs1 : Pat Str := fun s =>
  let run := s.takeWhile (fun c => !isWs c)
  if run = [] then none else some (run.length, run)

def statusRefCore (kw : Str) : Pat Str := do
  pLit kw
  let r ← pNonWs1
  pBdry
  pure r

def statusBareCore (kw : Str) : Pat Unit := do
  pLit kw
  pBdry

/-- `parseStatus`: `!blocked:<ref>`, `!blocked`, `!waiting:<ref>`,
`!waiting`, tried in that order. -/
def parseStatus (text : Str) :
    TaskStatus × Option Str × Option Str × Str :=
  match findPat (statusRefCore "!blocked:".toList) text with
  | some (i, len, r) =>
    (TaskStatus.blocked, none, some r,
     cleanRemaining (replaceFirstSub text ((text.drop i).take len) [' ']))
  | none =>
    match findPat (statusBareCore "!blocked".toList) text with
    | some (i, len, _) =>
      (TaskStatus.blocked, none, none,
       cleanRemaining (replaceFirstSub text ((text.drop i).take len) [' ']))
    | none =>
      match findPat (statusRefCore "!waiting:".toList) text with
      | some (i, len, r) =>
        (TaskStatus.waiting, some r, none,
         cleanRemaining (replaceFirstSub text ((text.drop i).take len) [' ']))
      | none =>
        match findPat (statusBareCore "!waiting".toList) text with
        | some (i, len, _) =>
          (TaskStatus.waiting, none, none,
           cleanRemaining (replaceFirstSub text ((text.drop i).take len) [' ']))
        | none => (TaskStatus.active, none, none, text)

/-- Core of `/(?:^|\s)(~(\d+)([mhd]))(?:\s|$)/i`; payload = the digit run
and the unit character as written. -/
def estCore : Pat (Str × Char) := fun s =>
  match s with
  | c0 :: rest =>
    if c0 = '~' then
      let run := rest.takeWhile isDigitCh
      if run = [] then none
      else
        match rest.drop run.length with
        | u :: r2 =>
          if (u.toLower = 'm' ∨ u.toLower = 'h' ∨ u.toLower = 'd') ∧
              bdryOk r2 then
            some (1 + run.length + 1, (run, u))
          else none
        | [] => none
    else none
  | [] => none

/-- `parseTimeEstimate`: minutes plus the display text `<N><unit>`. -/
def parseTimeEstimate (text : Str) : Option (Nat × Str) × Str :=
  match findPat estCore text with
  | none => (none, text)
  | some (i, len, (run, u)) =>
    let value := natOfDigits run
    let minutes :=
      if u.toLower = 'm' then value
      else if u.toLower = 'h' then value * 60
      else value * 60 * 8
    (some (minutes, run ++ [u]),
     cleanRemaining (replaceFirstSub text ((text.drop i).take len) [' ']))

end Taskman

namespace Taskman

/-! ### Recurrence extractor (src/src/parser.ts) -/

inductive RecType
  | day
  | week
  | month
  | year
  | weekday
  | custom
deriving DecidableEq, Repr

structure RecurrenceRule where
  rtype : RecType
  interval : Nat
  daysOfWeek : List Nat
  originalText : Str
deriving DecidableEq, Repr

/-- One `(?:sun|mon|tue|wed|thu|fri|sat)` alternative at the head (all
abbreviations have length 3 and are mutually non-overlapping). -/
def dayAbbrevAt (s : Str) : Bool :=
  DAY_ABBREVS.any (fun a => (matchLit a s).isSome)

/-- Greedy repetitions of `(?:<abbrev>\s*)`: the whitespace-run length of
each repetition, plus the rest of the input. -/
def customRepsAux : Nat → Str → List Nat × Str
  | 0, s => ([], s)
  | fuel + 1, s =>
    if dayAbbrevAt s then
      let rest := s.drop 3
      let w := (rest.takeWhile isWs).length
      let (ws, r) := customRepsAux fuel (rest.drop w)
      (w :: ws, r)
    else ([], s)

/-- Length in characters of the first `k` repetitions. -/
def repsLen (ws : List Nat) (k : Nat) : Nat :=
  ((ws.take k).foldl (fun acc w => acc + 3 + w) 0)

/-- Largest usable repetition count, mirroring the engine's backtracking
at the closing `(?:\s|$)`: all repetitions when the input is exhausted,
otherwise the longest prefix whose final `\s*` can give back one
whitespace character to the boundary. -/
def customPickK (ws : List Nat) (restEmpty : Bool) : Option Nat :=
  if restEmpty then some ws.length
  else
    let rec go : Nat → Option Nat
      | 0 => none
      | k + 1 => if ws.getD k 0 ≥ 1 then some (k + 1) else go k
    go ws.length

/-- Core of `/(?:^|\s)(every\s+(?:(?:sun|mon|tue|wed|thu|fri|sat)\s*)+)(?:\s|$)/i`;
payload = the captured group (everything but the boundary). -/
def customDaysCore : Pat Str := fun s =>
  match matchLit "every".toList s with
  | none => none
  | some r0 =>
    let w0 := (r0.takeWhile isWs).length
    if w0 = 0 then none
    else
      let body := r0.drop w0
      let (ws, rest) := customRepsAux body.length body
      if ws = [] then none
      else
        match customPickK ws rest.isEmpty with
        | none => none
        | some k =>
          let full := k = ws.length ∧ rest.isEmpty = true
          let core := 5 + w0 + repsLen ws k - (if full then 0 else 1)
          some (core, s.take core)

/-- Wrap a core so its payload also carries the matched text (the
captured group). -/
def withTextP {alpha : Type} (p : Pat alpha) : Pat (Str × alpha) := fun s =>
  match p s with
  | none => none
  | some (n, a) => some (n, (s.take n, a))

/-- Core of `/(?:^|\s)(every\s+weekday)(?:\s|$)/i`. -/
def weekdayCore : Pat (Str × Unit) :=
  withTextP (do
    pLit "every".toList
    pWs1
    pLit "weekday".toList
    pBdry)

/-- `(\d+)?` (greedy, optional). -/
def pOptDigits : Pat Str := fun s =>
  let run := s.takeWhile isDigitCh
  some (run.length, run)

/-- `\s*` (greedy). -/
def pWsStar : Pat Unit := fun s => some ((s.takeWhile isWs).length, ())

/-- Core of `/(?:^|\s)(every\s+(\d+)?\s*(day|week|month|year)s?)(?:\s|$)/i`. -/
def intervalCoreRaw : Pat (Str × RecType) := do
  pLit "every".toList
  pWs1
  let ds ← pOptDigits
  pWsStar
  let u ← pAlts
    [do pLit "day".toList; pOptSBdry; pure RecType.day,
     do pLit "week".toList; pOptSBdry; pure RecType.week,
     do pLit "month".toList; pOptSBdry; pure RecType.month,
     do pLit "year".toList; pOptSBdry; pure RecType.year]
  pure (ds, u)

def intervalCore : Pat (Str × (Str × RecType)) := withTextP intervalCoreRaw

/-- `parseRecurrence`: custom weekday list, then `every weekday`, then
`every N unit`. -/
def parseRecurrence (text : Str) : Option RecurrenceRule × Str :=
  match findPat customDaysCore text with
  | some (i, len, group1) =>
    let daysStr := lowerStr group1
    let daysOfWeek :=
      (List.range 7).filterMap (fun j =>
        if containsSub daysStr (DAY_ABBREVS.getD j []) then some j else none)
    if daysOfWeek.length > 0 then
      (some ⟨RecType.custom, 1, daysOfWeek, trim group1⟩,
       cleanRemaining (replaceFirstSub text ((text.drop i).take len) [' ']))
    else tryWeekdayRec text
  | none => tryWeekdayRec text
where
  tryWeekdayRec (text : Str) : Option RecurrenceRule × Str :=
    match findPat weekdayCore text with
    | some (i, len, (group1, _)) =>
      (some ⟨RecType.weekday, 1, [1, 2, 3, 4, 5], trim group1⟩,
       cleanRemaining (replaceFirstSub text ((text.drop i).take len) [' ']))
    | none =>
      match findPat intervalCore text with
      | some (i, len, (group1, ds, u)) =>
        let interval := if ds = [] then 1 else natOfDigits ds
        (some ⟨u, interval, [], trim group1⟩,
         cleanRemaining (replaceFirstSub text ((text.drop i).take len) [' ']))
      | none => (none, text)

/-! ### Tags, contexts and projects (src/src/parser.ts) -/

/-- All matches of `/#(\w+)/g`-style patterns with marker `mark`, in
left-to-right order. -/
def scanTokensAux (mark : Char) : Nat → Str → List Str
  | 0, _ => []
  | fuel + 1, s =>
    match s with
    | [] => []
    | c :: rest =>
      if c = mark then
        let run := rest.takeWhile isWordCh
        if run = [] then scanTokensAux mark fuel rest
        else run :: scanTokensAux mark fuel (rest.drop run.length)
      else scanTokensAux mark fuel rest

def scanTokens (mark : Char) (s : Str) : List Str :=
  scanTokensAux mark s.length s

/-- `.replace(/#\w+/g, "")`-style removal for marker `mark`. -/
def removeTokensAux (mark : Char) : Nat → Str → Str
  | 0, s => s
  | fuel + 1, s =>
    match s with
    | [] => []
    | c :: rest =>
      if c = mark then
        let run := rest.takeWhile isWordCh
        if run = [] then c :: removeTokensAux mark fuel rest
        else removeTokensAux mark fuel (rest.drop run.length)
      else c :: removeTokensAux mark fuel rest

def removeTokens (mark : Char) (s : Str) : Str :=
  removeTokensAux mark s.length s

/-- `parseTagsAndContexts`. -/
def parseTagsAndContexts (text : Str) :
    List Str × List Str × Option Str × Str :=
  let tags := scanTokens '#' text
  let r1 := removeTokens '#' text
  let contexts := scanTokens '@' r1
  let r2 := removeTokens '@' r1
  let project := (scanTokens '+' r2).head?
  let r3 := removeTokens '+' r2
  (tags, contexts, project, cleanRemaining r3)

end Taskman

namespace Taskman

/-! ### The directive parser (src/src/parser.ts, `parseTodoLine`) -/

structure ParsedTodoLine where
  checked : Bool
  title : Str
  dueRaw : Option Str
  dueYmd : Option Str
  priority : Nat
  tags : List Str
  contexts : List Str
  project : Option Str
  recurrence : Option RecurrenceRule
  estimate : Option (Nat × Str)
  status : TaskStatus
  waitingOn : Option Str
  blockedBy : Option Str
deriving DecidableEq, Repr

/-- `textAfterCheckbox.replace(/^todo\s+/i, "")`. -/
def dropTodoKeyword (t : Str) : Str :=
  match matchLit "todo".toList t with
  | some rest =>
    let w := (rest.takeWhile isWs).length
    if w = 0 then t else rest.drop w
  | none => t

/-- `parseTodoLine`; `today` is the reference date the natural-language
resolver uses. -/
def parseTodoLine (today : Ymd) (line : Str) : Option ParsedTodoLine :=
  if !isTodoLineCandidate line then none
  else
    let base := trim (stripTodoMeta line)
    let (checked, textAfterCheckbox) :=
      match checkHead base with
      | some (c, rest) => (c.toLower == 'x', trim rest)
      | none => (false, base)
    let textAfterCheckbox := dropTodoKeyword textAfterCheckbox
    if textAfterCheckbox = [] then none
    else
      let (priority, afterPriority) := parsePriority textAfterCheckbox
      let (status, waitingOn, blockedBy, afterStatus) :=
        parseStatus afterPriority
      let (estimate, afterEstimate) := parseTimeEstimate afterStatus
      let (recurrence, afterRecurrence) := parseRecurrence afterEstimate
      let (date, afterDate) := parseNaturalDate today afterRecurrence
      let (tags, contexts, project, title) := parseTagsAndContexts afterDate
      if title = [] then none
      else
        some
          { checked := checked
            title := title
            dueRaw := date.map formatDateCompact
            dueYmd := date.map formatDateYmd
            priority := priority
            tags := tags
            contexts := contexts
            project := project
            recurrence := recurrence
            estimate := estimate
            status := status
            waitingOn := waitingOn
            blockedBy := blockedBy }

end Taskman

namespace Taskman

/-! ### Mutation engine (src/src/editor.ts) -/

/-- `toggleCheckbox`: flip `^(\s*- )\[( |x|X)\]` (no-op when the line has
no checkbox head). -/
def toggleCheckbox (line : Str) : Str :=
  let lw := line.takeWhile isWs
  match line.drop lw.length with
  | '-' :: ' ' :: '[' :: c :: ']' :: rest =>
    if c = ' ' ∨ c = 'x' ∨ c = 'X' then
      lw ++ '-' :: ' ' :: '[' :: (if c.toLower = 'x' then ' ' else 'x') ::
        ']' :: rest
    else line
  | _ => line

/-- `isTodoLine`: `^(\s*)- \[( |x|X)\]\s+`. -/
def isTodoLine (line : Str) : Bool :=
  let lw := line.takeWhile isWs
  match line.drop lw.length with
  | '-' :: ' ' :: '[' :: c :: ']' :: rest =>
    (c = ' ' ∨ c = 'x' ∨ c = 'X') &&
    (match rest with
     | hd :: _ => isWs hd
     | [] => false)
  | _ => false

/-- `findByStableId` (as an `Option` index rather than −1). -/
def findByStableId (lines : List Str) (stableId : Str) : Option Nat :=
  lines.findIdx? (fun l =>
    containsSub l ("<!--todo:id=".toList ++ stableId ++ [';']))

/-- The task-record fields the mutation engine reads (`IndexedTask` of
src/src/types.ts restricted to what `toggleTask`/`rescheduleTask` use).
`dueYmd` holds the parsed `YYYY-MM-DD` due date (the source stores its
`formatDate` image as a string). -/
structure IndexedTask where
  stableId : Option Str
  rawLine : Str
  lineNoHint : Nat
  checked : Bool
  dueYmd : Option Ymd
  recurrence : Option RecurrenceRule
  title : Str
deriving DecidableEq, Repr

def absDist (a b : Nat) : Nat := ((a : Int) - (b : Int)).natAbs

/-- `findEphemeralMatch`. -/
def findEphemeralMatch (lines : List Str) (task : IndexedTask) :
    Option Nat :=
  let needle := normalizeForMatch (stripTodoMeta task.rawLine)
  let ms :=
    ((lines.zip (List.range lines.length)).filter (fun p =>
      isTodoLine p.1 && normalizeForMatch (stripTodoMeta p.1) = needle)).map
      (fun p => p.2)
  match ms with
  | [] => none
  | [i] => some i
  | i0 :: rest =>
    some (rest.foldl
      (fun best cur =>
        if absDist cur task.lineNoHint < absDist best task.lineNoHint then cur
        else best)
      i0)

/-- The switch of `calculateNextOccurrence` (the date part). -/
def nextWeekdayAux : Nat → Ymd → Ymd
  | 0, t => t
  | fuel + 1, t =>
    let t2 := nextDay t
    if dayOfWeek t2 = 0 ∨ dayOfWeek t2 = 6 then nextWeekdayAux fuel t2
    else t2

def calcNextDate (cur : Ymd) (r : RecurrenceRule) : Ymd :=
  match r.rtype with
  | RecType.day => addDaysN r.interval cur
  | RecType.week => addDaysN (r.interval * 7) cur
  | RecType.month => addMonths r.interval cur
  | RecType.year => normDay (cur.y + r.interval) cur.m cur.d
  | RecType.weekday => nextWeekdayAux 7 cur
  | RecType.custom =>
    if r.daysOfWeek.length > 0 then
      let startDay := dayOfWeek cur
      match (((List.range 7).map (fun j => j + 1) : List Nat)).find?
          (fun i =>
            r.daysOfWeek.contains (((startDay + Int.ofNat i).emod 7).toNat)) with
      | some i => addDaysN i cur
      | none => cur
    else cur

/-- `calculateNextOccurrence` of src/src/editor.ts: next due date as a
`YYYY-MM-DD` string (the `currentDate` string argument is represented by
its parsed `Ymd` value). -/
def calculateNextOccurrence (cur : Ymd) (r : RecurrenceRule) : Str :=
  formatDate (calcNextDate cur r)

/-- JS `date.replace` removing every dash character (global regex). -/
def removeDashes (s : Str) : Str := s.filter (fun c => c ≠ '-')

/-- `replaceDateInLine`. -/
def replaceDateInLine (line oldDate newDate : Str) : Str :=
  replaceFirstSub line (removeDashes oldDate) (removeDashes newDate)

/-- `{ success, error? }`. -/
structure MutationResult where
  success : Bool
  error : Option Str
deriving DecidableEq, Repr

/-- What a queued mutation did to the file: the content it would write,
whether the `vault.modify` call happened, and the public result. -/
structure MutationOutcome where
  written : Bool
  newContent : Str
  result : MutationResult
deriving DecidableEq, Repr

/-- Target-line resolution shared by `toggleTask` and `rescheduleTask`:
stable-id lookup when the record carries one, ephemeral best-effort match
otherwise. -/
def resolveTargetIdx (task : IndexedTask) (lines : List Str) : Option Nat :=
  match task.stableId with
  | some sid => findByStableId lines sid
  | none => findEphemeralMatch lines task

/-- `if (newContent !== content) await this.app.vault.modify(file, newContent)`
followed by the `{ success: true }` return. -/
def writeIfChanged (content newContent : Str) : MutationOutcome :=
  if newContent ≠ content then ⟨true, newContent, ⟨true, none⟩⟩
  else ⟨false, content, ⟨true, none⟩⟩

/-- The early `return` of the queued closure when the target line cannot
be located: no write, and the call still resolves as a success. -/
def noopOutcome (content : Str) : MutationOutcome :=
  ⟨false, content, ⟨true, none⟩⟩

def insertAt (n : Nat) (a : Str) (l : List Str) : List Str :=
  l.take n ++ [a] ++ l.drop n

/-- The queued closure of `TaskEditor.toggleTask` (the file exists and
I/O succeeds; `today` models the wall clock, `freshId1`/`freshId2` the
two potential `generateId()` draws). -/
def toggleTaskModel (task : IndexedTask) (content : Str) (today : Ymd)
    (freshId1 freshId2 : Str) : MutationOutcome :=
  let lines := splitNl content
  match resolveTargetIdx task lines with
  | none => noopOutcome content
  | some idx =>
    let line := lines.getD idx []
    let meta0 :=
      match parseTodoMeta line with
      | some m => m
      | none => ⟨freshId1, 1, none⟩
    let isCompleting := !task.checked
    let hasRecurrence := task.recurrence.isSome
    let meta :=
      if isCompleting then { meta0 with done := some (formatDate today) }
      else { meta0 with done := none }
    let line := trimEnd (stripTodoMeta line) ++ ' ' :: formatTodoMeta meta
    let newLines :=
      match task.dueYmd, task.recurrence with
      | some due, some rec' =>
        if isCompleting ∧ hasRecurrence = true then
          let line := toggleCheckbox line
          let nextDate := calculateNextOccurrence due rec'
          let nextDateCompact := removeDashes nextDate
          let lw := line.takeWhile isWs
          let newLine :=
            lw ++ "- [ ] ".toList ++ task.title ++ ' ' :: nextDateCompact
              ++ ' ' :: rec'.originalText
              ++ ' ' :: formatTodoMeta ⟨freshId2, 1, none⟩
          insertAt (idx + 1) newLine (lines.set idx line)
        else lines.set idx (toggleCheckbox line)
      | _, _ => lines.set idx (toggleCheckbox line)
    writeIfChanged content (joinNl newLines)

/-- The queued closure of `TaskEditor.rescheduleTask` (`newDate` is the
`YYYY-MM-DD` argument). -/
def rescheduleTaskModel (task : IndexedTask) (content : Str)
    (newDate : Str) (freshId : Str) : MutationOutcome :=
  let lines := splitNl content
  match resolveTargetIdx task lines with
  | none => noopOutcome content
  | some idx =>
    let line := lines.getD idx []
    let line :=
      match task.dueYmd with
      | some due => replaceDateInLine line (formatDate due) newDate
      | none =>
        let newDateCompact := removeDashes newDate
        match parseTodoMeta line with
        | some m =>
          let metaStr := formatTodoMeta m
          replaceFirstSub line metaStr (newDateCompact ++ ' ' :: metaStr)
        | none => trimEnd line ++ ' ' :: newDateCompact
    let line :=
      match parseTodoMeta line with
      | some _ => line
      | none =>
        trimEnd (stripTodoMeta line) ++ ' ' ::
          formatTodoMeta ⟨freshId, 1, none⟩
    writeIfChanged content (joinNl (lines.set idx line))

/-- Options of `TaskEditor.addTask`. -/
structure AddOptions where
  priority : Nat
  tags : Option (List Str)
  project : Option Str
  estimate : Option Str
deriving DecidableEq, Repr

/-- The task line `addTask` composes, as the concatenation of its parts
in the source's append order: checkbox, priority marks, title, tags,
project, compact due date, estimate. -/
def composeTaskLine (title : Str) (dueDate : Option Str)
    (options : AddOptions) : Str :=
  "- [ ] ".toList
  ++ (if options.priority > 0 then
        List.replicate options.priority '!' ++ [' ']
      else [])
  ++ title
  ++ (match options.tags with
      | some ts => (ts.map (fun t => ' ' :: '#' :: t)).flatten
      | none => [])
  ++ (match options.project with
      | some p => ' ' :: '+' :: p
      | none => [])
  ++ (match dueDate with
      | some d => ' ' :: removeDashes d
      | none => [])
  ++ (match options.estimate with
      | some e => ' ' :: '~' :: e
      | none => [])

/-- The queued closure of `TaskEditor.addTask`: the new content is
written unconditionally. -/
def addTaskModel (content : Str) (title : Str) (dueDate : Option Str)
    (options : AddOptions) : MutationOutcome :=
  let line := composeTaskLine title dueDate options
  let newContent := trimEnd content ++ '\n' :: line ++ ['\n']
  ⟨true, newContent, ⟨true, none⟩⟩

end Taskman

namespace Taskman

/-! ### Shorthand conversion and the indexer (src/src/icsExport.ts) -/

/-- One attempt of the unanchored checkbox-todo strip pattern (a checkbox
head, whitespace, the `todo` keyword, whitespace) at the head of `s`;
returns (captured-group length, whole-match length). -/
def cbTodoAt (s : Str) : Option (Nat × Nat) :=
  match s with
  | '-' :: ' ' :: '[' :: c :: ']' :: rest =>
    if c = ' ' ∨ c = 'x' ∨ c = 'X' then
      let w1 := (rest.takeWhile isWs).length
      if w1 = 0 then none
      else
        match matchLit "todo".toList (rest.drop w1) with
        | none => none
        | some r2 =>
          let w2 := (r2.takeWhile isWs).length
          if w2 = 0 then none else some (5 + w1, 5 + w1 + 4 + w2)
    else none
  | _ => none

/-- Leftmost occurrence of the checkbox-todo pattern. -/
def cbTodoIdx : Str → Option (Nat × Nat × Nat)
  | [] => none
  | s@(_ :: rest) =>
    match cbTodoAt s with
    | some (g1, m0) => some (0, g1, m0)
    | none => (cbTodoIdx rest).map (fun p => (p.1 + 1, p.2.1, p.2.2))

/-- The branch-1 replace of `normalizeToCheckboxFormat`: drop the `todo`
keyword after a checkbox, keeping the captured checkbox part. -/
def cbTodoStrip (line : Str) : Str :=
  match cbTodoIdx line with
  | none => line
  | some (i, g1, m0) => line.take (i + g1) ++ line.drop (i + m0)

/-- `/^todo\s+\S/i` on the trimmed line (the simple-format guard). -/
def simpleTodoStart (t : Str) : Bool :=
  match matchLit "todo".toList t with
  | none => false
  | some rest =>
    let w := (rest.takeWhile isWs).length
    if w = 0 then false
    else
      match rest.drop w with
      | _ :: _ => true
      | [] => false

/-- `normalizeToCheckboxFormat`; `today` is the reference date used when
converting a natural-language date of a shorthand line. -/
def normalizeToCheckboxFormat (today : Ymd) (line : Str) : Str :=
  let trimmed := trim line
  if (checkHead trimmed).isSome then cbTodoStrip line
  else if simpleTodoStart trimmed then
    let lw := line.takeWhile isWs
    let withoutTodo := dropTodoKeyword trimmed
    let (date, remainingText) := parseNaturalDate today withoutTodo
    match date with
    | some dt =>
      lw ++ "- [ ] ".toList ++ remainingText ++ ' ' :: formatDateCompact dt
    | none => lw ++ "- [ ] ".toList ++ withoutTodo
  else line

/-- The task-record fields the identity claims concern (subset of
`IndexedTask` as built by `reindexFileInternal`). -/
structure IdxTask where
  stableId : Option Str
  ephemeralId : Str
  rawLine : Str
  lineNo : Nat
deriving DecidableEq, Repr

/-- `Map.get` on the occurrence-count map (`normalizedCount`). -/
def mapGet : List (Str × Nat) → Str → Option Nat
  | [], _ => none
  | (a, b) :: rest, k => if a = k then some b else mapGet rest k

/-- `Map.set`: replace the existing binding in place, else append at the
end (JS `Map` keeps insertion order). -/
def mapSet : List (Str × Nat) → Str → Nat → List (Str × Nat)
  | [], k, v => [(k, v)]
  | (a, b) :: rest, k, v =>
    if a = k then (k, v) :: rest else (a, b) :: mapSet rest k v

/-- The full-parse loop of `reindexFileInternal` (lines 383-433): walk the
lines in order, keep the per-normalised-line occurrence counter, and
build the task list with its ephemeral identities
`path : fnv1a32(normalized) : occurrence`. -/
def indexLinesAux (path : Str) (today : Ymd) :
    List Str → Nat → List (Str × Nat) → List IdxTask
  | [], _, _ => []
  | line :: rest, i, counts =>
    if !isTodoLineCandidate line then indexLinesAux path today rest (i + 1) counts
    else
      match parseTodoLine today line with
      | none => indexLinesAux path today rest (i + 1) counts
      | some _ =>
        let meta := parseTodoMeta line
        let normalized := normalizeForMatch (stripTodoMeta line)
        let occ := (mapGet counts normalized).getD 0 + 1
        let counts := mapSet counts normalized occ
        let ephemeralId :=
          path ++ ':' :: fnv1a32Str normalized ++ ':' :: toDec occ
        { stableId := meta.map (fun m => m.id)
          ephemeralId := ephemeralId
          rawLine := line
          lineNo := i } :: indexLinesAux path today rest (i + 1) counts

def indexLines (path : Str) (today : Ymd) (lines : List Str) :
    List IdxTask :=
  indexLinesAux path today lines 0 []

end Taskman

namespace Taskman

/-! ### Per-file write queue (src/src/writeQueue.ts)

`enqueue` chains the new operation after the key's current tail promise
with `prev.then(op, op)` — the operation runs whether or not the previous
one succeeded — stores the new promise as the tail, and after awaiting it
deletes the map entry if (and only if) it is still the tail.

The model is a small-step machine for one key of the `queues` map:
promises are numbered in creation order, `tailId` is the map entry
(`none` = no entry), `pending` the chained operations not yet settled
(each with the success flag of its eventual outcome), `ran` the operations
that have executed, in execution order.  An `enq` event is the synchronous
part of `enqueue`; a `settle` event lets the oldest pending operation run
and settle, and then runs the corresponding `enqueue`'s cleanup
(`if (this.queues.get(path) === next) this.queues.delete(path)`), which
is the continuation scheduled when that promise settles. -/

structure QState where
  tailId : Option Nat
  nextId : Nat
  pending : List (Nat × Bool)
  ran : List Nat
deriving DecidableEq, Repr

def QState.init : QState := ⟨none, 0, [], []⟩

inductive QEvent
  | enq (succeeds : Bool)
  | settle
deriving DecidableEq, Repr

def qstep (s : QState) : QEvent → QState
  | QEvent.enq b =>
    { s with
      tailId := some s.nextId
      nextId := s.nextId + 1
      pending := s.pending ++ [(s.nextId, b)] }
  | QEvent.settle =>
    match s.pending with
    | [] => s
    | (id, _) :: rest =>
      { s with
        pending := rest
        ran := s.ran ++ [id]
        tailId := if s.tailId = some id then none else s.tailId }

def qrun (evs : List QEvent) : QState := evs.foldl qstep QState.init

end Taskman

namespace Taskman

/-! ### Derived definitions used by the verification -/

/-- The trailing whitespace run `trimEnd` removes. -/
def wsSuffix (s : Str) : Str := (s.reverse.takeWhile isWs).reverse

/-- The `todo` keyword (case-insensitively) starts here. -/
def todoAt (s : Str) : Bool := (matchLit "todo".toList s).isSome

/-- Number of positions at which the `todo` keyword occurs. -/
def todoCount : Str → Nat
  | [] => 0
  | s@(_ :: rest) => (if todoAt s then 1 else 0) + todoCount rest

end Taskman

namespace Taskman

/-! ### C1 — recurrence math, concrete cases -/

/-- C1 (counterexample): the claim's "every month" case is wrong on the
code.  For a due date of 2026-01-31 with rule "every month",
`calculateNextOccurrence` does not return the last day of February 2026
(2026-02-28): JS `setMonth` keeps the day-of-month, so January 31 plus
one month normalises to 2026-03-03. -/
theorem calculateNextOccurrence_month_overflows :
    calculateNextOccurrence ⟨2026, 1, 31⟩
        ⟨RecType.month, 1, [], "every month".toList⟩ ≠
      "2026-02-28".toList ∧
    calculateNextOccurrence ⟨2026, 1, 31⟩
        ⟨RecType.month, 1, [], "every month".toList⟩ =
      "2026-03-03".toList := by
  constructor
  · decide
  · decide

/-- C1 (amended): the spec's concrete recurrence cases, with the month
case corrected to the code's day-of-month overflow behaviour: due
2026-01-15 + "every week" → 2026-01-22; due 2026-01-31 + "every month" →
2026-03-03 (not the last day of February); due on Friday 2026-01-16 +
"every weekday" → Monday 2026-01-19; due on Wednesday 2026-01-14 with
custom set {Mon, Wed, Fri} → Friday 2026-01-16. -/
theorem calculateNextOccurrence_concrete_cases :
    calculateNextOccurrence ⟨2026, 1, 15⟩
        ⟨RecType.week, 1, [], "every week".toList⟩ = "2026-01-22".toList ∧
    calculateNextOccurrence ⟨2026, 1, 31⟩
        ⟨RecType.month, 1, [], "every month".toList⟩ = "2026-03-03".toList ∧
    (dayOfWeek ⟨2026, 1, 16⟩ = 5 ∧
      calculateNextOccurrence ⟨2026, 1, 16⟩
          ⟨RecType.weekday, 1, [1, 2, 3, 4, 5], "every weekday".toList⟩ =
        "2026-01-19".toList ∧
      dayOfWeek ⟨2026, 1, 19⟩ = 1) ∧
    (dayOfWeek ⟨2026, 1, 14⟩ = 3 ∧
      calculateNextOccurrence ⟨2026, 1, 14⟩
          ⟨RecType.custom, 1, [1, 3, 5], "every mon wed fri".toList⟩ =
        "2026-01-16".toList ∧
      dayOfWeek ⟨2026, 1, 16⟩ = 5) := by
  refine ⟨by decide, by decide, ⟨by decide, by decide, by decide⟩,
    ⟨by decide, by decide, by decide⟩⟩

/-! ### C4 — resolver pattern list on explicit years -/

/-- C4 (counterexample): the resolver's patterns are not mutually
exclusive — for "dec 15 2027" both the year-less month-day pattern and
the month-day-year pattern match — and because the year-less pattern
comes first, the resolver (reference date 2026-01-14) returns December
15 of the *current* year, leaving the year "2027" in the remaining text
instead of honouring it. -/
theorem parseNaturalDate_year_shadowed :
    (findPat (monthDayCore ⟨2026, 1, 14⟩ false) "dec 15 2027".toList).isSome
        = true ∧
    (findPat (monthDayCore ⟨2026, 1, 14⟩ true) "dec 15 2027".toList).isSome
        = true ∧
    parseNaturalDate ⟨2026, 1, 14⟩ "dec 15 2027".toList =
      (some ⟨2026, 12, 15⟩, "2027".toList) ∧
    (2026 : Int) ≠ 2027 := by
  refine ⟨by decide, by decide, by decide, by decide⟩

/-- C4 (amended): the resolver's patterns are tried in order and the
first regex match wins; the month-day forms with an explicit year are
listed after the year-less forms, which match the same inputs first, so
the explicit year is never honoured: "dec 15 2027" resolves to December
15 of the reference year (or of the next year when that date has already
passed), and "2027" stays in the remaining text rather than being
removed. -/
theorem parseNaturalDate_monthDay_ignores_year :
    parseNaturalDate ⟨2026, 1, 14⟩ "dec 15 2027".toList =
      (some ⟨2026, 12, 15⟩, "2027".toList) ∧
    parseNaturalDate ⟨2026, 12, 20⟩ "dec 15 2027".toList =
      (some ⟨2027, 12, 15⟩, "2027".toList) ∧
    parseNaturalDate ⟨2026, 1, 14⟩ "15 dec 2027".toList =
      (some ⟨2026, 12, 15⟩, "2027".toList) := by
  refine ⟨by decide, by decide, by decide⟩

end Taskman

namespace Taskman

/-! ### Shared lemmas on `trimEnd` and the composed task line -/

theorem trimEnd_append_wsSuffix (s : Str) : trimEnd s ++ wsSuffix s = s := by
  unfold trimEnd wsSuffix
  calc (s.reverse.dropWhile isWs).reverse ++ (s.reverse.takeWhile isWs).reverse
      = (s.reverse.takeWhile isWs ++ s.reverse.dropWhile isWs).reverse :=
        (List.reverse_append _ _).symm
    _ = s.reverse.reverse := by rw [List.takeWhile_append_dropWhile]
    _ = s := List.reverse_reverse s

theorem wsSuffix_all (s : Str) : (wsSuffix s).all isWs = true := by
  rw [List.all_eq_true]
  intro x hx
  unfold wsSuffix at hx
  rw [List.mem_reverse] at hx
  exact List.mem_takeWhile_imp hx

theorem composeTaskLine_head (title : Str) (dueDate : Option Str)
    (options : AddOptions) :
    ∃ r, composeTaskLine title dueDate options = "- [ ] ".toList ++ r := by
  refine ⟨(if options.priority > 0 then
        List.replicate options.priority '!' ++ [' ']
      else [])
    ++ title
    ++ (match options.tags with
        | some ts => (ts.map (fun t => ' ' :: '#' :: t)).flatten
        | none => [])
    ++ (match options.project with
        | some p => ' ' :: '+' :: p
        | none => [])
    ++ (match dueDate with
        | some d => ' ' :: removeDashes d
        | none => [])
    ++ (match options.estimate with
        | some e => ' ' :: '~' :: e
        | none => []), ?_⟩
  unfold composeTaskLine
  simp [List.append_assoc]

theorem addTask_newContent_ne (content title : Str) (dueDate : Option Str)
    (options : AddOptions) :
    (addTaskModel content title dueDate options).newContent ≠ content := by
  intro h
  have hdec := trimEnd_append_wsSuffix content
  have h' :
      trimEnd content ++ '\n' :: composeTaskLine title dueDate options
          ++ ['\n'] =
        trimEnd content ++ wsSuffix content := by
    calc trimEnd content ++ '\n' :: composeTaskLine title dueDate options
          ++ ['\n']
        = (addTaskModel content title dueDate options).newContent := by
          simp [addTaskModel]
      _ = content := h
      _ = trimEnd content ++ wsSuffix content := hdec.symm
  rw [List.append_assoc] at h'
  have h2 := List.append_cancel_left h'
  have hall := wsSuffix_all content
  rw [← h2] at hall
  obtain ⟨r, hr⟩ := composeTaskLine_head title dueDate options
  rw [hr] at hall
  rw [List.all_eq_true] at hall
  have hdash := hall '-' (by
    apply List.mem_append_left
    apply List.mem_cons_of_mem
    apply List.mem_append_left
    decide)
  exact absurd hdash (by decide)

/-! ### C10 — `addTask` content formula -/

/-- C10: `addTask` writes exactly the old content with its trailing
whitespace removed, then one newline, the composed task line, and a
final newline.  The old content decomposes as its `trimEnd` prefix plus
an all-whitespace tail, the new content preserves that prefix
byte-for-byte, and a file that did end in whitespace is therefore not
preserved byte-for-byte beyond it. -/
theorem addTask_content_formula (content title : Str)
    (dueDate : Option Str) (options : AddOptions) :
    (addTaskModel content title dueDate options).newContent =
      trimEnd content ++ '\n' :: composeTaskLine title dueDate options
        ++ ['\n'] ∧
    trimEnd content ++ content.drop (trimEnd content).length = content ∧
    (content.drop (trimEnd content).length).all isWs = true ∧
    (addTaskModel content title dueDate options).newContent.take
        (trimEnd content).length =
      trimEnd content := by
  have hdec := trimEnd_append_wsSuffix content
  have hdrop : content.drop (trimEnd content).length = wsSuffix content := by
    have h0 := List.drop_left (trimEnd content) (wsSuffix content)
    rw [hdec] at h0
    exact h0
  refine ⟨rfl, ?_, ?_, ?_⟩
  · rw [hdrop]; exact hdec
  · rw [hdrop]; exact wsSuffix_all content
  · have hshape : (addTaskModel content title dueDate options).newContent =
        trimEnd content ++
          ('\n' :: composeTaskLine title dueDate options ++ ['\n']) := by
      simp [addTaskModel, List.append_assoc]
    rw [hshape]
    exact List.take_left _ _

/-! ### C5 — writes happen exactly when content changed -/

theorem writeIfChanged_spec (c n : Str) :
    (writeIfChanged c n).written = true ↔
      (writeIfChanged c n).newContent ≠ c := by
  unfold writeIfChanged
  split_ifs with h <;> simp [h]

/-- C5: each mutation operation writes exactly when the content it
generated differs from the content it read.  `toggleTask` and
`rescheduleTask` compare explicitly and skip the write on equality;
`addTask` writes unconditionally, and the content it generates always
differs from what it read (its composed line starts with a non-blank
checkbox token, so the appended text can never coincide with the
stripped trailing whitespace). -/
theorem mutation_writes_iff_changed (task : IndexedTask)
    (content : Str) (today : Ymd) (f1 f2 nd f3 title : Str)
    (dueDate : Option Str) (options : AddOptions) :
    ((toggleTaskModel task content today f1 f2).written = true ↔
      (toggleTaskModel task content today f1 f2).newContent ≠ content) ∧
    ((rescheduleTaskModel task content nd f3).written = true ↔
      (rescheduleTaskModel task content nd f3).newContent ≠ content) ∧
    ((addTaskModel content title dueDate options).written = true ∧
      (addTaskModel content title dueDate options).newContent ≠ content) := by
  refine ⟨?_, ?_, ?_, addTask_newContent_ne content title dueDate options⟩
  · cases h : resolveTargetIdx task (splitNl content) with
    | none => simp only [toggleTaskModel, h]; simp [noopOutcome]
    | some idx => simp only [toggleTaskModel, h]; exact writeIfChanged_spec _ _
  · cases h : resolveTargetIdx task (splitNl content) with
    | none => simp only [rescheduleTaskModel, h]; simp [noopOutcome]
    | some idx =>
      simp only [rescheduleTaskModel, h]; exact writeIfChanged_spec _ _
  · rfl

end Taskman

namespace Taskman

/-! ### C7 (counterexample) and C9 — toggle on a vanished target -/

/-- C7 (counterexample): `normalizeToCheckboxFormat` is not idempotent.
On the line `- [ ] todo todo x` one application strips a single `todo`
keyword, and a second application strips another. -/
theorem normalizeToCheckboxFormat_not_idempotent :
    normalizeToCheckboxFormat ⟨2026, 1, 14⟩
        (normalizeToCheckboxFormat ⟨2026, 1, 14⟩
          "- [ ] todo todo x".toList) ≠
      normalizeToCheckboxFormat ⟨2026, 1, 14⟩ "- [ ] todo todo x".toList ∧
    normalizeToCheckboxFormat ⟨2026, 1, 14⟩ "- [ ] todo todo x".toList =
      "- [ ] todo x".toList ∧
    normalizeToCheckboxFormat ⟨2026, 1, 14⟩
        (normalizeToCheckboxFormat ⟨2026, 1, 14⟩
          "- [ ] todo todo x".toList) =
      "- [ ] x".toList := by
  refine ⟨by decide, by decide, by decide⟩

/-- C9 (amended): when the target line can no longer be located (neither
by stable identity nor by normalized-content match), `toggleTask`'s
queued operation returns early: the file content is left unchanged, no
write occurs, and the overall call resolves as a plain success — but the
public result (`{ success: true }`) carries no indication that nothing
happened. -/
theorem toggleTask_target_not_found_noop (task : IndexedTask)
    (content : Str) (today : Ymd) (f1 f2 : Str)
    (h : resolveTargetIdx task (splitNl content) = none) :
    toggleTaskModel task content today f1 f2 = noopOutcome content ∧
    (toggleTaskModel task content today f1 f2).written = false ∧
    (toggleTaskModel task content today f1 f2).newContent = content ∧
    (toggleTaskModel task content today f1 f2).result =
      ⟨true, none⟩ := by
  have heq : toggleTaskModel task content today f1 f2 =
      noopOutcome content := by
    simp only [toggleTaskModel, h]
  exact ⟨heq, by rw [heq]; rfl, by rw [heq]; rfl, by rw [heq]; rfl⟩

theorem toggleTask_target_not_found_noop_witness :
    toggleTaskModel
        ⟨some "zz99".toList, "- [ ] x".toList, 0, false, none, none,
          "x".toList⟩
        "- [ ] x".toList ⟨2026, 1, 14⟩ "a1".toList "a2".toList =
      noopOutcome "- [ ] x".toList := by
  exact (toggleTask_target_not_found_noop
    ⟨some "zz99".toList, "- [ ] x".toList, 0, false, none, none,
      "x".toList⟩
    "- [ ] x".toList ⟨2026, 1, 14⟩ "a1".toList "a2".toList (by decide)).1

/-- C9 (counterexample): the public mutation result does *not* indicate
that nothing happened.  A toggle whose target vanished (no write) and a
toggle that actually rewrote the file return the identical public result
`{ success: true }`. -/
theorem toggleTask_noop_result_indistinguishable :
    (toggleTaskModel
        ⟨some "zz99".toList, "- [ ] x".toList, 0, false, none, none,
          "x".toList⟩
        "- [ ] x".toList ⟨2026, 1, 14⟩ "a1".toList "a2".toList).written =
      false ∧
    (toggleTaskModel
        ⟨some "aa11".toList,
          "- [ ] x <!--todo:id=aa11;v=1-->".toList, 0, false, none, none,
          "x".toList⟩
        "- [ ] x <!--todo:id=aa11;v=1-->".toList ⟨2026, 1, 14⟩
        "a1".toList "a2".toList).written = true ∧
    (toggleTaskModel
        ⟨some "zz99".toList, "- [ ] x".toList, 0, false, none, none,
          "x".toList⟩
        "- [ ] x".toList ⟨2026, 1, 14⟩ "a1".toList "a2".toList).result =
      (toggleTaskModel
        ⟨some "aa11".toList,
          "- [ ] x <!--todo:id=aa11;v=1-->".toList, 0, false, none, none,
          "x".toList⟩
        "- [ ] x <!--todo:id=aa11;v=1-->".toList ⟨2026, 1, 14⟩
        "a1".toList "a2".toList).result := by
  refine ⟨by decide, by decide, by decide⟩

end Taskman

namespace Taskman

/-! ### Decimal formatting round-trip -/

theorem toDecAux_acc (fuel : Nat) :
    ∀ (n : Nat) (acc : Str), toDecAux fuel n acc = toDecAux fuel n [] ++ acc := by
  induction fuel with
  | zero => intro n acc; simp [toDecAux]
  | succ f ih =>
    intro n acc
    by_cases h : n < 10
    · simp [toDecAux, h]
    · simp only [toDecAux, if_neg h]
      rw [ih (n / 10) (Char.ofNat (n % 10 + '0'.toNat) :: acc),
        ih (n / 10) [Char.ofNat (n % 10 + '0'.toNat)]]
      simp

theorem natOfDigits_snoc (xs : Str) (c : Char) :
    natOfDigits (xs ++ [c]) = natOfDigits xs * 10 + (c.toNat - '0'.toNat) := by
  simp [natOfDigits, List.foldl_append]

theorem digit_char_toNat (k : Nat) (h : k < 10) :
    (Char.ofNat (k + '0'.toNat)).toNat - '0'.toNat = k := by
  interval_cases k <;> rfl

theorem natOfDigits_toDecAux (fuel : Nat) :
    ∀ n : Nat, n < 10 ^ fuel → natOfDigits (toDecAux fuel n []) = n := by
  induction fuel with
  | zero =>
    intro n hn
    have hz : n = 0 := by omega
    subst hz
    rfl
  | succ f ih =>
    intro n hn
    by_cases h : n < 10
    · simp only [toDecAux, if_pos h]
      have : natOfDigits [Char.ofNat (n + '0'.toNat)] =
          (Char.ofNat (n + '0'.toNat)).toNat - '0'.toNat := by
        simp [natOfDigits]
      rw [this, digit_char_toNat n h]
    · simp only [toDecAux, if_neg h]
      rw [toDecAux_acc, natOfDigits_snoc,
        digit_char_toNat (n % 10) (Nat.mod_lt _ (by omega)),
        ih (n / 10) (by
          have h1 : 10 ^ (f + 1) = 10 ^ f * 10 := by ring
          omega)]
      omega

theorem natOfDigits_toDec (n : Nat) (h : n < 10 ^ 32) :
    natOfDigits (toDec n) = n :=
  natOfDigits_toDecAux 32 n h

theorem toDec_injOn (a b : Nat) (ha : a < 10 ^ 32) (hb : b < 10 ^ 32)
    (h : toDec a = toDec b) : a = b := by
  have := congrArg natOfDigits h
  rwa [natOfDigits_toDec a ha, natOfDigits_toDec b hb] at this

/-! ### `Map` get/set round-trips -/

theorem mapGet_mapSet_self (m : List (Str × Nat)) (k : Str) (val : Nat) :
    mapGet (mapSet m k val) k = some val := by
  induction m with
  | nil => simp [mapSet, mapGet]
  | cons a rest ih =>
    obtain ⟨x, y⟩ := a
    by_cases hx : x = k
    · simp [mapSet, mapGet, hx]
    · simp only [mapSet, if_neg hx]
      simpa [mapGet, hx] using ih

theorem mapGet_mapSet_ne (m : List (Str × Nat)) (k k' : Str) (val : Nat)
    (hne : k' ≠ k) : mapGet (mapSet m k val) k' = mapGet m k' := by
  induction m with
  | nil =>
    have h2 : ¬ k = k' := fun h => hne h.symm
    simp [mapSet, mapGet, h2]
  | cons a rest ih =>
    obtain ⟨x, y⟩ := a
    by_cases hx : x = k
    · subst hx
      have hxk : ¬ x = k' := fun h => hne h.symm
      simp [mapSet, mapGet, hxk]
    · by_cases hx' : x = k'
      · subst hx'
        simp [mapSet, mapGet, hx, fun h => hne (h : x = k)]
      · simp only [mapSet, if_neg hx]
        simpa [mapGet, hx'] using ih

end Taskman

namespace Taskman

/-! ### C6 — duplicate lines receive increasing occurrence indices -/

theorem indexLinesAux_ids (path : Str) (today : Ymd) (v : Str)
    (lines : List Str) :
    ∀ (i : Nat) (counts : List (Str × Nat)),
    ((indexLinesAux path today lines i counts).filter
        (fun t => normalizeForMatch (stripTodoMeta t.rawLine) = v)).map
        (fun t => t.ephemeralId) =
      (List.range ((indexLinesAux path today lines i counts).filter
        (fun t => normalizeForMatch (stripTodoMeta t.rawLine) = v)).length).map
        (fun k => path ++ ':' :: fnv1a32Str v ++ ':' ::
          toDec ((mapGet counts v).getD 0 + k + 1)) := by
  induction lines with
  | nil => intro i counts; simp [indexLinesAux]
  | cons line rest ih =>
    intro i counts
    by_cases hc : isTodoLineCandidate line
    · cases hp : parseTodoLine today line with
      | none =>
        simp only [indexLinesAux, hc, Bool.not_true, Bool.false_eq_true,
          if_false, hp]
        exact ih (i + 1) counts
      | some parsed =>
        simp only [indexLinesAux, hc, Bool.not_true, Bool.false_eq_true,
          if_false, hp]
        by_cases hv : normalizeForMatch (stripTodoMeta line) = v
        · rw [hv]
          simp only [List.filter_cons, hv, decide_True, if_true,
            List.map_cons, List.length_cons]
          have hbase :
              (mapGet (mapSet counts v ((mapGet counts v).getD 0 + 1))
                v).getD 0 =
                (mapGet counts v).getD 0 + 1 := by
            rw [mapGet_mapSet_self]; rfl
          have ihx := ih (i + 1)
            (mapSet counts v ((mapGet counts v).getD 0 + 1))
          rw [hbase] at ihx
          rw [ihx, List.range_succ_eq_map, List.map_cons, List.map_map]
          refine congrArg (fun z =>
            (path ++ ':' :: fnv1a32Str v ++ ':' ::
              toDec ((mapGet counts v).getD 0 + 0 + 1)) :: z) ?_
          apply List.map_congr_left
          intro a _
          have harith : (mapGet counts v).getD 0 + 1 + a + 1 =
              (mapGet counts v).getD 0 + (a + 1) + 1 := by omega
          simp only [Function.comp]
          rw [harith]
        · simp only [List.filter_cons, hv, decide_False,
            Bool.false_eq_true, if_false]
          have hrk := mapGet_mapSet_ne counts
            (normalizeForMatch (stripTodoMeta line)) v
            ((mapGet (counts) (normalizeForMatch (stripTodoMeta line))).getD 0
              + 1)
            (fun h => hv h.symm)
          have ihx := ih (i + 1)
            (mapSet counts (normalizeForMatch (stripTodoMeta line))
              ((mapGet (counts)
                (normalizeForMatch (stripTodoMeta line))).getD 0 + 1))
          rw [hrk] at ihx
          exact ihx
    · simp only [indexLinesAux, hc, Bool.not_false, if_true]
      exact ih (i + 1) counts

end Taskman

namespace Taskman

theorem indexLinesAux_lineNo_lb (path : Str) (today : Ymd)
    (lines : List Str) :
    ∀ (i : Nat) (counts : List (Str × Nat)) (t : IdxTask),
      t ∈ indexLinesAux path today lines i counts → i ≤ t.lineNo := by
  induction lines with
  | nil => intro i counts t ht; simp [indexLinesAux] at ht
  | cons line rest ih =>
    intro i counts t ht
    by_cases hc : isTodoLineCandidate line
    · cases hp : parseTodoLine today line with
      | none =>
        rw [indexLinesAux] at ht
        simp only [hc, Bool.not_true, Bool.false_eq_true, if_false, hp]
          at ht
        exact Nat.le_of_succ_le (ih (i + 1) counts t ht)
      | some parsed =>
        rw [indexLinesAux] at ht
        simp only [hc, Bool.not_true, Bool.false_eq_true, if_false, hp]
          at ht
        rcases List.mem_cons.mp ht with h | h
        · rw [h]
        · exact Nat.le_of_succ_le (ih (i + 1) _ t h)
    · rw [indexLinesAux] at ht
      simp only [hc, Bool.not_false, if_true] at ht
      exact Nat.le_of_succ_le (ih (i + 1) counts t ht)

theorem indexLinesAux_lineNo_chain (path : Str) (today : Ymd)
    (lines : List Str) :
    ∀ (i : Nat) (counts : List (Str × Nat)),
      List.Chain' (fun a b => a.lineNo < b.lineNo)
        (indexLinesAux path today lines i counts) := by
  induction lines with
  | nil => intro i counts; simp [indexLinesAux]
  | cons line rest ih =>
    intro i counts
    by_cases hc : isTodoLineCandidate line
    · cases hp : parseTodoLine today line with
      | none =>
        rw [indexLinesAux]
        simp only [hc, Bool.not_true, Bool.false_eq_true, if_false, hp]
        exact ih (i + 1) counts
      | some parsed =>
        rw [indexLinesAux]
        simp only [hc, Bool.not_true, Bool.false_eq_true, if_false, hp]
        refine List.chain'_cons'.mpr ⟨?_, ih (i + 1) _⟩
        intro b hb
        have hmem := List.mem_of_mem_head? hb
        have := indexLinesAux_lineNo_lb path today rest (i + 1) _ b hmem
        simpa using Nat.lt_of_succ_le this
    · rw [indexLinesAux]
      simp only [hc, Bool.not_false, if_true]
      exact ih (i + 1) counts

/-- C6: in one full parse pass, the tasks whose normalized form equals
`v` receive the ephemeral identities `path:hash(v):1, path:hash(v):2, …`
with the occurrence index running 1, 2, …, N in document order: their
line numbers are strictly increasing, and (for any length a JS number
represents exactly) the identities are pairwise distinct. -/
theorem indexLines_duplicate_identities (path : Str) (today : Ymd)
    (lines : List Str) (v : Str) :
    ((indexLines path today lines).filter
        (fun t => normalizeForMatch (stripTodoMeta t.rawLine) = v)).map
        (fun t => t.ephemeralId) =
      (List.range (((indexLines path today lines).filter
        (fun t =>
          normalizeForMatch (stripTodoMeta t.rawLine) = v)).length)).map
        (fun k => path ++ ':' :: fnv1a32Str v ++ ':' :: toDec (k + 1)) ∧
    List.Chain' (fun a b => a.lineNo < b.lineNo)
      ((indexLines path today lines).filter
        (fun t => normalizeForMatch (stripTodoMeta t.rawLine) = v)) ∧
    ((((indexLines path today lines).filter
        (fun t => normalizeForMatch (stripTodoMeta t.rawLine) = v)).length
          < 10 ^ 32) →
      (((indexLines path today lines).filter
        (fun t => normalizeForMatch (stripTodoMeta t.rawLine) = v)).map
        (fun t => t.ephemeralId)).Nodup) := by
  have hmain := indexLinesAux_ids path today v lines 0 []
  have hbase : (mapGet ([] : List (Str × Nat)) v).getD 0 = 0 := rfl
  rw [hbase] at hmain
  have hids :
      ((indexLines path today lines).filter
          (fun t => normalizeForMatch (stripTodoMeta t.rawLine) = v)).map
          (fun t => t.ephemeralId) =
        (List.range (((indexLines path today lines).filter
          (fun t =>
            normalizeForMatch (stripTodoMeta t.rawLine) = v)).length)).map
          (fun k =>
            path ++ ':' :: fnv1a32Str v ++ ':' :: toDec (k + 1)) := by
    rw [indexLines, hmain]
    apply List.map_congr_left
    intro a _
    have : 0 + a + 1 = a + 1 := by omega
    rw [this]
  refine ⟨hids, ?_, ?_⟩
  · haveI : IsTrans IdxTask (fun a b => a.lineNo < b.lineNo) :=
      ⟨fun _ _ _ h1 h2 => Nat.lt_trans h1 h2⟩
    exact List.Chain'.sublist (indexLinesAux_lineNo_chain path today lines 0 [])
      (List.filter_sublist _)
  · intro hlen
    rw [hids]
    refine List.Nodup.map_on ?_ (List.nodup_range _)
    intro x hx y hy hxy
    rw [List.mem_range] at hx hy
    have h1 : ':' :: toDec (x + 1) = ':' :: toDec (y + 1) := by
      have hx2 :
          path ++ ':' :: fnv1a32Str v ++ ':' :: toDec (x + 1) =
            (path ++ ':' :: fnv1a32Str v) ++ ':' :: toDec (x + 1) := by
        simp [List.append_assoc]
      have hy2 :
          path ++ ':' :: fnv1a32Str v ++ ':' :: toDec (y + 1) =
            (path ++ ':' :: fnv1a32Str v) ++ ':' :: toDec (y + 1) := by
        simp [List.append_assoc]
      rw [hx2, hy2] at hxy
      exact List.append_cancel_left hxy
    have h2 : toDec (x + 1) = toDec (y + 1) := by
      injection h1
    have := toDec_injOn (x + 1) (y + 1) (by omega) (by omega) h2
    omega

end Taskman

namespace Taskman

theorem indexLines_duplicate_identities_witness :
    (((indexLines "f.md".toList ⟨2026, 1, 14⟩
        ["- [ ] a".toList, "- [ ] a".toList]).filter
        (fun t => normalizeForMatch (stripTodoMeta t.rawLine) =
          "- [ ] a".toList)).map (fun t => t.ephemeralId)).Nodup := by
  exact (indexLines_duplicate_identities "f.md".toList ⟨2026, 1, 14⟩
    ["- [ ] a".toList, "- [ ] a".toList] "- [ ] a".toList).2.2 (by decide)

end Taskman

namespace Taskman

/-! ### C8 — content-hash sensitivity and the cache check -/

end Taskman

namespace Taskman

/-! ### C2 — per-key write queue: FIFO, failure-tolerant, self-cleaning -/

theorem qrun_enqueues (flags : List Bool) :
    ∀ (st : QState),
      (flags.map QEvent.enq).foldl qstep st =
        { tailId := if flags = [] then st.tailId
            else some (st.nextId + flags.length - 1)
          nextId := st.nextId + flags.length
          pending := st.pending ++
            (List.range' st.nextId flags.length).zip flags
          ran := st.ran } := by
  induction flags with
  | nil => intro st; simp
  | cons b rest ih =>
    intro st
    simp only [List.map_cons, List.foldl_cons]
    rw [ih]
    have hr : List.range' st.nextId (rest.length + 1) =
        st.nextId :: List.range' (st.nextId + 1) rest.length := by
      rw [List.range'_succ]
    simp only [qstep, List.length_cons, hr]
    by_cases hrest : rest = []
    · subst hrest
      simp
    · simp only [if_neg hrest,
        if_neg (by simp : ¬ (b :: rest : List Bool) = []),
        List.zip_cons_cons, QState.mk.injEq]
      refine ⟨?_, by omega, by simp, trivial⟩
      congr 1
      omega

theorem qrun_drain (m : Nat) :
    ∀ (k n : Nat) (fl : List Bool) (ran : List Nat),
      fl.length = m → 0 < m →
      (List.replicate m QEvent.settle).foldl qstep
          ⟨some (k + m - 1), n, (List.range' k m).zip fl, ran⟩ =
        ⟨none, n, [], ran ++ List.range' k m⟩ := by
  induction m with
  | zero => intro k n fl ran _ h0; omega
  | succ m' ih =>
    intro k n fl ran hlen _
    cases fl with
    | nil => simp at hlen
    | cons b fl' =>
      have hlen' : fl'.length = m' := by simpa using hlen
      have hr : List.range' k (m' + 1) = k :: List.range' (k + 1) m' := by
        rw [List.range'_succ]
      by_cases hm : m' = 0
      · subst hm
        cases fl' with
        | nil =>
          have hk : k + (0 + 1) - 1 = k := by omega
          simp [hr, qstep, hk, List.range'_one]
        | cons c cs => simp at hlen'
      · have h0' : 0 < m' := Nat.pos_of_ne_zero hm
        simp only [List.replicate_succ, List.foldl_cons, hr,
          List.zip_cons_cons]
        have hstep :
            qstep ⟨some (k + (m' + 1) - 1), n,
              (k, b) :: (List.range' (k + 1) m').zip fl', ran⟩
              QEvent.settle =
            ⟨some (k + 1 + m' - 1), n,
              (List.range' (k + 1) m').zip fl', ran ++ [k]⟩ := by
          have hkk : k + (m' + 1) - 1 = k + 1 + m' - 1 := by omega
          rw [hkk]
          simp only [qstep]
          have hne : ¬ (some (k + 1 + m' - 1) = some k) := by
            intro h
            injection h with h
            omega
          rw [if_neg hne]
        rw [hstep, ih (k + 1) n fl' (ran ++ [k]) hlen' h0']
        have : ran ++ [k] ++ List.range' (k + 1) m' =
            ran ++ (k :: List.range' (k + 1) m') := by
          simp
        rw [this, ← hr]

/-- C2: for every sequence of `N` operations enqueued against one key
(each with an arbitrary success/failure outcome), the chained operations
run exactly in submission order — a rejected operation does not prevent
the ones chained after it — and once the last of them settles the map
entry for the key is gone. -/
theorem writeQueue_fifo_and_cleanup (flags : List Bool) :
    (qrun (flags.map QEvent.enq ++
        List.replicate flags.length QEvent.settle)).ran =
      List.range flags.length ∧
    (qrun (flags.map QEvent.enq ++
        List.replicate flags.length QEvent.settle)).pending = [] ∧
    (qrun (flags.map QEvent.enq ++
        List.replicate flags.length QEvent.settle)).tailId = none := by
  unfold qrun
  rw [List.foldl_append, qrun_enqueues flags QState.init]
  cases hfl : flags with
  | nil => simp [QState.init]
  | cons b rest =>
    have hpos : 0 < flags.length := by rw [hfl]; simp
    have hne : flags ≠ [] := by rw [hfl]; simp
    rw [← hfl]
    simp only [if_neg hne, QState.init]
    have hd := qrun_drain flags.length 0 flags.length flags [] rfl hpos
    simp only [Nat.zero_add, List.nil_append] at hd ⊢
    rw [hd]
    refine ⟨?_, rfl, rfl⟩
    simp [List.range_eq_range']

end Taskman

namespace Taskman

/-! ### C3 — "next <weekday>" resolution -/

/-- C3 (counterexample): on Tuesday 2026-01-13, "next friday" resolves to
the nearest Friday 2026-01-16 — the immediately upcoming occurrence — not
to the following week's Friday 2026-01-23 as the claim demands. -/
theorem getNextDayOfWeek_next_is_nearest :
    dayOfWeek ⟨2026, 1, 13⟩ = 2 ∧
    getNextDayOfWeek "friday".toList true ⟨2026, 1, 13⟩ = ⟨2026, 1, 16⟩ ∧
    (⟨2026, 1, 16⟩ : Ymd) ≠ ⟨2026, 1, 23⟩ := by
  refine ⟨by decide, by decide, by decide⟩

theorem jsIndexOfStr_bounds (l : List Str) (x : Str) :
    jsIndexOfStr l x = -1 ∨
      (0 ≤ jsIndexOfStr l x ∧ jsIndexOfStr l x < l.length) := by
  induction l with
  | nil => left; rfl
  | cons a rest ih =>
    by_cases ha : a = x
    · right
      simp [jsIndexOfStr, ha]
    · rcases ih with h | ⟨h1, h2⟩
      · left
        simp [jsIndexOfStr, ha, h]
      · right
        have hne : jsIndexOfStr rest x ≠ -1 := by omega
        simp only [jsIndexOfStr, if_neg ha, if_neg hne, List.length_cons]
        constructor
        · omega
        · push_cast
          omega

theorem targetDowOf_bounds (name : Str) :
    targetDowOf name = -1 ∨
      (0 ≤ targetDowOf name ∧ targetDowOf name < 7) := by
  unfold targetDowOf
  by_cases h0 : jsIndexOfStr DAY_NAMES (lowerStr name) = -1
  · rw [if_pos h0]
    rcases jsIndexOfStr_bounds DAY_ABBREVS ((lowerStr name).take 3) with
      h | ⟨h1, h2⟩
    · left; exact h
    · right
      refine ⟨h1, ?_⟩
      have : (DAY_ABBREVS.length : Int) = 7 := by decide
      omega
  · rw [if_neg h0]
    rcases jsIndexOfStr_bounds DAY_NAMES (lowerStr name) with h | ⟨h1, h2⟩
    · exact absurd h h0
    · right
      refine ⟨h1, ?_⟩
      have : (DAY_NAMES.length : Int) = 7 := by decide
      omega

theorem dayOfWeek_bounds (t : Ymd) : 0 ≤ dayOfWeek t ∧ dayOfWeek t < 7 := by
  unfold dayOfWeek
  exact ⟨Int.emod_nonneg _ (by omega), Int.emod_lt_of_pos _ (by omega)⟩

/-- C3 (amended): for every valid weekday name, "next <weekday>" resolves
exactly like bare "<weekday>" and "this <weekday>" — the `+7; -7`
adjustment in the source cancels, so all three return the nearest
strictly-future occurrence.  In particular when the reference date itself
falls on the named weekday, the result is seven days later — the same
date bare "<weekday>" returns, not a week later than it. -/
theorem getNextDayOfWeek_force_eq_plain (today : Ymd) (name : Str)
    (h : targetDowOf name ≠ -1) :
    getNextDayOfWeek name true today = getNextDayOfWeek name false today ∧
    (dayOfWeek today = targetDowOf name →
      getNextDayOfWeek name true today = addDays 7 today) := by
  rcases targetDowOf_bounds name with h1 | ⟨hlo, hhi⟩
  · exact absurd h1 h
  · have hdow := dayOfWeek_bounds today
    constructor
    · unfold getNextDayOfWeek
      simp only [reduceIte]
      congr 1
      dsimp only
      split_ifs <;> omega
    · intro heq
      unfold getNextDayOfWeek
      rw [← heq]
      simp only [reduceIte]
      congr 1
      dsimp only
      split_ifs <;> omega

theorem getNextDayOfWeek_force_eq_plain_witness :
    getNextDayOfWeek "friday".toList true ⟨2026, 1, 16⟩ =
      getNextDayOfWeek "friday".toList false ⟨2026, 1, 16⟩ ∧
    getNextDayOfWeek "friday".toList true ⟨2026, 1, 16⟩ =
      addDays 7 ⟨2026, 1, 16⟩ := by
  have h := getNextDayOfWeek_force_eq_plain ⟨2026, 1, 16⟩ "friday".toList
    (by decide)
  exact ⟨h.1, h.2 (by decide)⟩

end Taskman

namespace Taskman

/-! ### C7 (amended) — idempotence for at most one `todo` keyword

Character-level facts, then occurrence counting for the `todo` keyword,
then preservation of "no occurrence" through the text operations of
`normalizeToCheckboxFormat`. -/

theorem isWs_not_upper (c : Char) (h : isWs c = true) :
    ¬ (65 ≤ c.toNat ∧ c.toNat ≤ 90) := by
  unfold isWs at h
  simp only [Bool.or_eq_true, decide_eq_true_eq, Bool.and_eq_true] at h
  rcases h with h|h|h|h|h|h|h|h|⟨h1, h2⟩|h|h|h|h|h|h
  all_goals try (subst h; decide)
  intro hcon
  have h1' : (8192 : Nat) ≤ c.toNat := h1
  omega

theorem toLower_of_isWs (c : Char) (h : isWs c = true) : c.toLower = c := by
  unfold Char.toLower
  dsimp only
  rw [if_neg (by
    have := isWs_not_upper c h
    omega)]

theorem lowerEq_of_ws (c k : Char) (hc : isWs c = true)
    (hk : isWs k = false) (hfix : k.toLower = k) : lowerEq c k = false := by
  unfold lowerEq
  rw [toLower_of_isWs c hc, hfix]
  simp only [decide_eq_false_iff_not]
  intro he
  rw [he] at hc
  rw [hc] at hk
  cases hk

theorem matchLit_isSome_append (kw : Str) :
    ∀ u w : Str, (matchLit kw u).isSome = true →
      (matchLit kw (u ++ w)).isSome = true := by
  induction kw with
  | nil => intro u w _; simp [matchLit]
  | cons k ks ih =>
    intro u w h
    cases u with
    | nil => simp [matchLit] at h
    | cons c cs =>
      rw [List.cons_append]
      by_cases hl : lowerEq c k
      · simp only [matchLit, if_pos hl] at h ⊢
        exact ih cs w h
      · simp only [matchLit, if_neg hl] at h
        cases h

theorem matchLit_some_drop (kw : Str) :
    ∀ u r : Str, matchLit kw u = some r → r = u.drop kw.length := by
  induction kw with
  | nil => intro u r h; simp [matchLit] at h; simp [h.symm]
  | cons k ks ih =>
    intro u r h
    cases u with
    | nil => simp [matchLit] at h
    | cons c cs =>
      by_cases hl : lowerEq c k
      · simp only [matchLit, if_pos hl] at h
        simpa using ih cs r h
      · simp only [matchLit, if_neg hl] at h
        cases h

theorem matchLit_isSome_take (kw : Str) :
    ∀ u : Str, (matchLit kw u).isSome = true →
      (matchLit kw (u.take kw.length)).isSome = true := by
  induction kw with
  | nil => intro u _; simp [matchLit]
  | cons k ks ih =>
    intro u h
    cases u with
    | nil => simp [matchLit] at h
    | cons c cs =>
      rw [List.length_cons, List.take_succ_cons]
      by_cases hl : lowerEq c k
      · simp only [matchLit, if_pos hl] at h ⊢
        exact ih cs h
      · simp only [matchLit, if_neg hl] at h
        cases h

theorem matchLit_isSome_length (kw : Str) :
    ∀ u : Str, (matchLit kw u).isSome = true → kw.length ≤ u.length := by
  induction kw with
  | nil => intro u _; simp
  | cons k ks ih =>
    intro u h
    cases u with
    | nil => simp [matchLit] at h
    | cons c cs =>
      by_cases hl : lowerEq c k
      · simp only [matchLit, if_pos hl] at h
        simpa using ih cs h
      · simp only [matchLit, if_neg hl] at h
        cases h

/-- A keyword of non-whitespace characters cannot match across a
whitespace character sitting within its first `kw.length` positions. -/
theorem matchLit_ws_blocked (kw : Str)
    (hkw : ∀ k ∈ kw, isWs k = false ∧ k.toLower = k) :
    ∀ (P : Str) (sep : Char) (Q : Str), isWs sep = true →
      P.length < kw.length →
      (matchLit kw (P ++ sep :: Q)).isSome = false := by
  induction kw with
  | nil => intro P sep Q _ hlen; simp at hlen
  | cons k ks ih =>
    intro P sep Q hsep hlen
    cases P with
    | nil =>
      have hk := hkw k (List.mem_cons_self k ks)
      have hfalse : lowerEq sep k = false := lowerEq_of_ws sep k hsep hk.1 hk.2
      simp [matchLit, hfalse]
    | cons p P' =>
      rw [List.cons_append]
      by_cases hl : lowerEq p k
      · simp only [matchLit, if_pos hl]
        exact ih (fun x hx => hkw x (List.mem_cons_of_mem k hx)) P' sep Q
          hsep (by simpa using Nat.lt_of_succ_lt_succ (by simpa using hlen))
      · simp only [matchLit, if_neg hl]
        rfl

theorem todoAt_append_left (u w : Str) (h : todoAt u = true) :
    todoAt (u ++ w) = true :=
  matchLit_isSome_append "todo".toList u w h

theorem todoAt_of_take (u : Str) (m : Nat)
    (h : todoAt (u.take m) = true) : todoAt u = true := by
  have := todoAt_append_left (u.take m) (u.drop m) h
  rwa [List.take_append_drop] at this

theorem todoAt_length (u : Str) (h : todoAt u = true) : 4 ≤ u.length :=
  matchLit_isSome_length "todo".toList u h

theorem todoKw_chars :
    ∀ k ∈ "todo".toList, isWs k = false ∧ k.toLower = k := by decide

theorem todoAt_short_ws (P : Str) (sep : Char) (Q : Str)
    (hsep : isWs sep = true) (hP : P.length < 4) :
    todoAt (P ++ sep :: Q) = false :=
  matchLit_ws_blocked "todo".toList todoKw_chars P sep Q hsep hP

theorem todoAt_ws_head (c : Char) (cs : Str) (hc : isWs c = true) :
    todoAt (c :: cs) = false := by
  have := todoAt_short_ws [] c cs hc (by simp)
  simpa using this

theorem todoAt_append_cases (A : Str) (sep : Char) (Q : Str)
    (hsep : isWs sep = true) (h : todoAt (A ++ sep :: Q) = true) :
    todoAt A = true := by
  by_cases hlen : 4 ≤ A.length
  · have h4 := matchLit_isSome_take "todo".toList (A ++ sep :: Q) h
    have htake : (A ++ sep :: Q).take ("todo".toList).length = A.take 4 := by
      have : ("todo".toList).length = 4 := by decide
      rw [this, List.take_append_of_le_length hlen]
    rw [htake] at h4
    exact todoAt_of_take A 4 h4
  · rw [todoAt_short_ws A sep Q hsep (by omega)] at h
    cases h

end Taskman

namespace Taskman

theorem todoCount_cons (c : Char) (cs : Str) :
    todoCount (c :: cs) = (if todoAt (c :: cs) then 1 else 0) + todoCount cs := rfl

theorem todoAt_nil : todoAt ([] : Str) = false := by decide

theorem todoCount_zero_iff (s : Str) :
    todoCount s = 0 ↔ ∀ i, todoAt (s.drop i) = false := by
  induction s with
  | nil =>
    simp [todoCount, todoAt_nil]
  | cons c cs ih =>
    rw [todoCount_cons]
    constructor
    · intro h i
      have h1 : (if todoAt (c :: cs) then 1 else 0) = 0 := by omega
      have h2 : todoCount cs = 0 := by omega
      cases i with
      | zero =>
        by_cases ht : todoAt (c :: cs)
        · rw [if_pos ht] at h1; cases h1
        · simpa using eq_false_of_ne_true ht
      | succ j =>
        rw [List.drop_succ_cons]
        exact (ih.mp h2) j
    · intro h
      have h0 := h 0
      rw [List.drop_zero] at h0
      rw [h0, if_neg (by simp)]
      have : todoCount cs = 0 := ih.mpr (fun j => by
        have := h (j + 1)
        rwa [List.drop_succ_cons] at this)
      omega

theorem todoCount_pos_of_at (s : Str) (i : Nat)
    (h : todoAt (s.drop i) = true) : 1 ≤ todoCount s := by
  by_contra hc
  have hz : todoCount s = 0 := by omega
  rw [(todoCount_zero_iff s).mp hz i] at h
  cases h

theorem todoCount_two (s : Str) : ∀ i j : Nat, i < j →
    todoAt (s.drop i) = true → todoAt (s.drop j) = true →
    2 ≤ todoCount s := by
  induction s with
  | nil =>
    intro i j _ hi _
    rw [List.drop_nil, todoAt_nil] at hi
    cases hi
  | cons c cs ih =>
    intro i j hij hi hj
    rw [todoCount_cons]
    cases i with
    | zero =>
      rw [List.drop_zero] at hi
      rw [if_pos hi]
      obtain ⟨j', hj'⟩ : ∃ j', j = j' + 1 := ⟨j - 1, by omega⟩
      subst hj'
      rw [List.drop_succ_cons] at hj
      have := todoCount_pos_of_at cs j' hj
      omega
    | succ i' =>
      obtain ⟨j', hj'⟩ : ∃ j', j = j' + 1 := ⟨j - 1, by omega⟩
      subst hj'
      rw [List.drop_succ_cons] at hi hj
      have := ih i' j' (by omega) hi hj
      omega

theorem todoCount_drop_le (s : Str) : ∀ n : Nat, todoCount (s.drop n) ≤ todoCount s := by
  induction s with
  | nil => intro n; simp
  | cons c cs ih =>
    intro n
    cases n with
    | zero => simp
    | succ m =>
      rw [List.drop_succ_cons, todoCount_cons]
      have := ih m
      omega

theorem todoCount_take_le (s : Str) : ∀ n : Nat, todoCount (s.take n) ≤ todoCount s := by
  induction s with
  | nil => intro n; simp
  | cons c cs ih =>
    intro n
    cases n with
    | zero => simp [todoCount]
    | succ m =>
      rw [List.take_succ_cons, todoCount_cons, todoCount_cons]
      have h1 := ih m
      have h2 : (if todoAt (c :: cs.take m) then 1 else 0) ≤
          (if todoAt (c :: cs) then 1 else 0) := by
        by_cases ht : todoAt (c :: cs.take m)
        · have : todoAt (c :: cs) = true := by
            have := todoAt_of_take (c :: cs) (m + 1) (by
              rwa [List.take_succ_cons])
            exact this
          rw [if_pos ht, if_pos this]
        · rw [if_neg ht]; omega
      omega

/-- Occurrence count is zero across a whitespace-separated concatenation
whenever both sides have no occurrence. -/
theorem todoCount_append_ws (A B : Str) (sep : Char) (hsep : isWs sep = true)
    (hA : todoCount A = 0) (hB : todoCount B = 0) :
    todoCount (A ++ sep :: B) = 0 := by
  rw [todoCount_zero_iff]
  intro i
  by_cases hlt : i < A.length
  · rw [List.drop_append_of_le_length (by omega)]
    by_contra hcon
    have hcon' : todoAt (A.drop i ++ sep :: B) = true := by
      cases hx : todoAt (A.drop i ++ sep :: B)
      · rw [hx] at hcon; exact absurd rfl hcon
      · rfl
    have := todoAt_append_cases (A.drop i) sep B hsep hcon'
    have hp := todoCount_pos_of_at A i this
    omega
  · obtain ⟨k, hk⟩ : ∃ k, i = A.length + k := ⟨i - A.length, by omega⟩
    subst hk
    rw [List.drop_append]
    cases k with
    | zero =>
      rw [List.drop_zero]
      exact todoAt_ws_head sep B hsep
    | succ k' =>
      rw [List.drop_succ_cons]
      exact (todoCount_zero_iff B).mp hB k'

/-- A list all of whose characters fail to case-fold to `t` has no occurrence. -/
theorem todoCount_zero_of_no_t (s : Str)
    (h : ∀ c ∈ s, lowerEq c 't' = false) : todoCount s = 0 := by
  rw [todoCount_zero_iff]
  intro i
  cases hd : s.drop i with
  | nil => exact todoAt_nil
  | cons c cs =>
    have hc : c ∈ s := by
      have : c ∈ s.drop i := by rw [hd]; exact List.mem_cons_self c cs
      exact List.mem_of_mem_drop this
    have hf := h c hc
    show (matchLit "todo".toList (c :: cs)).isSome = false
    have : "todo".toList = 't' :: "odo".toList := rfl
    rw [this]
    simp [matchLit, hf]

end Taskman

namespace Taskman

theorem matchLit_collapse (kw : Str)
    (hkw : ∀ k ∈ kw, isWs k = false ∧ k.toLower = k) :
    ∀ cs : Str, (matchLit kw (collapseWsAux false cs)).isSome = true →
      (matchLit kw cs).isSome = true := by
  induction kw with
  | nil => intro cs _; simp [matchLit]
  | cons k ks ih =>
    intro cs h
    cases cs with
    | nil => simp [collapseWsAux, matchLit] at h
    | cons c cs' =>
      by_cases hws : isWs c
      · exfalso
        have hk := hkw k (List.mem_cons_self k ks)
        have heq : collapseWsAux false (c :: cs') = ' ' :: collapseWsAux true cs' := by
          simp [collapseWsAux, hws]
        rw [heq] at h
        have hf : lowerEq ' ' k = false := lowerEq_of_ws ' ' k (by decide) hk.1 hk.2
        simp [matchLit, hf] at h
      · have heq : collapseWsAux false (c :: cs') = c :: collapseWsAux false cs' := by
          simp [collapseWsAux, hws]
        rw [heq] at h
        by_cases hl : lowerEq c k
        · simp only [matchLit, if_pos hl] at h ⊢
          exact ih (fun x hx => hkw x (List.mem_cons_of_mem k hx)) cs' h
        · simp only [matchLit, if_neg hl] at h
          cases h

theorem collapse_occ (s : Str) : ∀ (b : Bool) (i : Nat),
    todoAt ((collapseWsAux b s).drop i) = true →
    ∃ j, todoAt (s.drop j) = true := by
  induction s with
  | nil =>
    intro b i h
    simp [collapseWsAux, todoAt_nil] at h
  | cons c cs ih =>
    intro b i h
    by_cases hws : isWs c
    · cases b with
      | true =>
        have hq : collapseWsAux true (c :: cs) = collapseWsAux true cs := by
          simp [collapseWsAux, hws]
        rw [hq] at h
        obtain ⟨j, hj⟩ := ih true i h
        exact ⟨j + 1, by rwa [List.drop_succ_cons]⟩
      | false =>
        have hq : collapseWsAux false (c :: cs) = ' ' :: collapseWsAux true cs := by
          simp [collapseWsAux, hws]
        rw [hq] at h
        cases i with
        | zero =>
          rw [List.drop_zero] at h
          rw [todoAt_ws_head ' ' _ (by decide)] at h
          cases h
        | succ i' =>
          rw [List.drop_succ_cons] at h
          obtain ⟨j, hj⟩ := ih true i' h
          exact ⟨j + 1, by rwa [List.drop_succ_cons]⟩
    · have hq : collapseWsAux b (c :: cs) = c :: collapseWsAux false cs := by
        simp [collapseWsAux, hws]
      rw [hq] at h
      cases i with
      | succ i' =>
        rw [List.drop_succ_cons] at h
        obtain ⟨j, hj⟩ := ih false i' h
        exact ⟨j + 1, by rwa [List.drop_succ_cons]⟩
      | zero =>
        rw [List.drop_zero] at h
        refine ⟨0, ?_⟩
        rw [List.drop_zero]
        unfold todoAt at h ⊢
        have hstep : "todo".toList = 't' :: "odo".toList := rfl
        rw [hstep] at h ⊢
        by_cases hl : lowerEq c 't'
        · simp only [matchLit, if_pos hl] at h ⊢
          exact matchLit_collapse "odo".toList (by decide) cs h
        · simp only [matchLit, if_neg hl] at h
          cases h

theorem todoCount_collapse_zero (s : Str) (h : todoCount s = 0) :
    todoCount (collapseWs s) = 0 := by
  rw [todoCount_zero_iff]
  intro i
  cases hx : todoAt ((collapseWs s).drop i) with
  | false => rfl
  | true =>
    unfold collapseWs at hx
    obtain ⟨j, hj⟩ := collapse_occ s false i hx
    rw [(todoCount_zero_iff s).mp h j] at hj
    cases hj

theorem todoCount_trimEnd_le (s : Str) : todoCount (trimEnd s) ≤ todoCount s := by
  have hdec := trimEnd_append_wsSuffix s
  have htake := List.take_left (trimEnd s) (wsSuffix s)
  rw [hdec] at htake
  have h2 : todoCount (trimEnd s) = todoCount (s.take (trimEnd s).length) := by
    rw [htake]
  rw [h2]
  exact todoCount_take_le s _

theorem todoCount_trimStart_le (s : Str) : todoCount (trimStart s) ≤ todoCount s := by
  have hdec : s.takeWhile isWs ++ s.dropWhile isWs = s :=
    List.takeWhile_append_dropWhile isWs s
  have hdrop := List.drop_left (s.takeWhile isWs) (s.dropWhile isWs)
  rw [hdec] at hdrop
  unfold trimStart
  have h2 : todoCount (s.dropWhile isWs) =
      todoCount (s.drop (s.takeWhile isWs).length) := by rw [hdrop]
  rw [h2]
  exact todoCount_drop_le s _

theorem todoCount_trim_le (s : Str) : todoCount (trim s) ≤ todoCount s := by
  unfold trim
  exact le_trans (todoCount_trimEnd_le (trimStart s)) (todoCount_trimStart_le s)

theorem todoCount_replaceFirst_space (s pat : Str) (h : todoCount s = 0) :
    todoCount (replaceFirstSub s pat [' ']) = 0 := by
  unfold replaceFirstSub
  cases hf : findSubIdx pat s with
  | none => exact h
  | some i =>
    dsimp only
    have hA : todoCount (s.take i) = 0 :=
      Nat.le_zero.mp (h ▸ todoCount_take_le s i)
    have hB : todoCount (s.drop (i + pat.length)) = 0 :=
      Nat.le_zero.mp (h ▸ todoCount_drop_le s (i + pat.length))
    have hw := todoCount_append_ws (s.take i) (s.drop (i + pat.length)) ' '
      (by decide) hA hB
    rw [List.append_assoc]
    simpa using hw

theorem todoCount_cleanRemaining (s : Str) (h : todoCount s = 0) :
    todoCount (cleanRemaining s) = 0 := by
  unfold cleanRemaining
  exact Nat.le_zero.mp
    (le_of_le_of_eq (todoCount_trim_le _) (todoCount_collapse_zero s h))

theorem todoCount_removeMatch (t : Str) (i len : Nat) (h : todoCount t = 0) :
    todoCount (removeMatch t i len) = 0 := by
  unfold removeMatch
  exact todoCount_cleanRemaining _ (todoCount_replaceFirst_space t _ h)

theorem tryNlPatterns_remaining (trimmed : Str) : ∀ ps,
    (tryNlPatterns trimmed ps).2 = trimmed ∨
    ∃ i len, (tryNlPatterns trimmed ps).2 = removeMatch trimmed i len := by
  intro ps
  induction ps with
  | nil => left; rfl
  | cons p rest ih =>
    cases hf : findPat p trimmed with
    | none => simpa [tryNlPatterns, hf] using ih
    | some r =>
      obtain ⟨i, len, od⟩ := r
      cases od with
      | some dt => exact Or.inr ⟨i, len, by simp [tryNlPatterns, hf]⟩
      | none => simpa [tryNlPatterns, hf] using ih

theorem parseNaturalDate_remaining_noTodo (today : Ymd) (t : Str)
    (h : todoCount t = 0) :
    todoCount (parseNaturalDate today t).2 = 0 := by
  have htrim : todoCount (trim t) = 0 :=
    Nat.le_zero.mp (h ▸ todoCount_trim_le t)
  unfold parseNaturalDate
  dsimp only
  cases hf : findPat y8Core (trim t) with
  | none =>
    dsimp only
    rcases tryNlPatterns_remaining (trim t) (nlPatterns today) with he | ⟨i, len, he⟩
    · rw [he]; exact htrim
    · rw [he]; exact todoCount_removeMatch _ i len htrim
  | some r =>
    obtain ⟨i, len, yy, mm, dd⟩ := r
    dsimp only
    split_ifs with hvalid
    · exact todoCount_removeMatch _ i len htrim
    · rcases tryNlPatterns_remaining (trim t) (nlPatterns today) with he | ⟨i', len', he⟩
      · rw [he]; exact htrim
      · rw [he]; exact todoCount_removeMatch _ i' len' htrim

theorem lowerEq_digit_t (k : Nat) (hk : k < 10) :
    lowerEq (Char.ofNat (k + '0'.toNat)) 't' = false := by
  interval_cases k <;> decide

theorem toDecAux_chars (fuel : Nat) : ∀ (n : Nat) (acc : Str) (c : Char),
    c ∈ toDecAux fuel n acc →
    c ∈ acc ∨ ∃ k, k < 10 ∧ c = Char.ofNat (k + '0'.toNat) := by
  induction fuel with
  | zero => intro n acc c h; exact Or.inl h
  | succ f ih =>
    intro n acc c h
    unfold toDecAux at h
    split_ifs at h with hn
    · rcases List.mem_cons.mp h with he | ha
      · exact Or.inr ⟨n, hn, he⟩
      · exact Or.inl ha
    · rcases ih (n / 10) _ c h with ha | hd
      · rcases List.mem_cons.mp ha with he | ha'
        · exact Or.inr ⟨n % 10, Nat.mod_lt n (by omega), he⟩
        · exact Or.inl ha'
      · exact Or.inr hd

theorem toDec_no_t (n : Nat) : ∀ c ∈ toDec n, lowerEq c 't' = false := by
  intro c hc
  rcases toDecAux_chars 32 n [] c hc with h | ⟨k, hk, he⟩
  · exact absurd h (List.not_mem_nil c)
  · rw [he]; exact lowerEq_digit_t k hk

theorem toDecInt_no_t (i : Int) : ∀ c ∈ toDecInt i, lowerEq c 't' = false := by
  intro c hc
  unfold toDecInt at hc
  split_ifs at hc
  · rcases List.mem_cons.mp hc with he | hm
    · rw [he]; decide
    · exact toDec_no_t _ c hm
  · exact toDec_no_t _ c hc

theorem pad2_no_t (n : Nat) : ∀ c ∈ pad2 n, lowerEq c 't' = false := by
  intro c hc
  unfold pad2 at hc
  dsimp only at hc
  split_ifs at hc
  · rcases List.mem_cons.mp hc with he | hm
    · rw [he]; decide
    · exact toDec_no_t n c hm
  · exact toDec_no_t n c hc

theorem formatDateCompact_no_t (t : Ymd) :
    ∀ c ∈ formatDateCompact t, lowerEq c 't' = false := by
  intro c hc
  unfold formatDateCompact at hc
  rcases List.mem_append.mp hc with h1 | h3
  · rcases List.mem_append.mp h1 with h1a | h1b
    · exact toDecInt_no_t _ c h1a
    · exact pad2_no_t _ c h1b
  · exact pad2_no_t _ c h3

theorem todoCount_formatDateCompact (t : Ymd) :
    todoCount (formatDateCompact t) = 0 :=
  todoCount_zero_of_no_t _ (formatDateCompact_no_t t)

end Taskman

namespace Taskman

theorem cbTodoIdx_at (s : Str) : ∀ (i g1 m0 : Nat),
    cbTodoIdx s = some (i, g1, m0) →
    cbTodoAt (s.drop i) = some (g1, m0) := by
  induction s with
  | nil => intro i g1 m0 h; simp [cbTodoIdx] at h
  | cons c cs ih =>
    intro i g1 m0 h
    unfold cbTodoIdx at h
    cases hat : cbTodoAt (c :: cs) with
    | some p =>
      obtain ⟨g, m⟩ := p
      rw [hat] at h
      dsimp only at h
      injection h with h'
      injection h' with h1 h23
      injection h23 with h2 h3
      subst h1; subst h2; subst h3
      rw [List.drop_zero]
      exact hat
    | none =>
      rw [hat] at h
      dsimp only at h
      cases hr : cbTodoIdx cs with
      | none => rw [hr] at h; simp at h
      | some q =>
        obtain ⟨qi, qg, qm⟩ := q
        rw [hr] at h
        simp only [Option.map_some'] at h
        injection h with h'
        injection h' with h1 h23
        injection h23 with h2 h3
        subst h1; subst h2; subst h3
        rw [List.drop_succ_cons]
        exact ih qi qg qm hr

theorem cbTodoAt_inv (u : Str) (g1 m0 : Nat) (h : cbTodoAt u = some (g1, m0)) :
    todoAt (u.drop g1) = true ∧ g1 < m0 ∧
    ∃ W sep, u.take g1 = W ++ [sep] ∧ isWs sep = true := by
  unfold cbTodoAt at h
  split at h
  case h_2 => cases h
  case h_1 c rest =>
    split_ifs at h with hc
    dsimp only at h
    split_ifs at h with hw1
    split at h
    next => cases h
    next r2 hm =>
      split_ifs at h with hw2
      injection h with h'
      injection h' with h1 h2
      subst h1; subst h2
      set w1 := (rest.takeWhile isWs).length with hw1def
      set w2 := (r2.takeWhile isWs).length with hw2def
      refine ⟨?_, by omega, ?_⟩
      · have hdd : (('-' :: ' ' :: '[' :: c :: ']' :: rest).drop 5).drop w1 =
            ('-' :: ' ' :: '[' :: c :: ']' :: rest).drop (5 + w1) :=
          List.drop_drop w1 5 _
        have hu5 : ('-' :: ' ' :: '[' :: c :: ']' :: rest).drop 5 = rest := rfl
        rw [hu5] at hdd
        rw [← hdd]
        show (matchLit "todo".toList (rest.drop w1)).isSome = true
        rw [hm]
        rfl
      · have htadd := List.take_add ('-' :: ' ' :: '[' :: c :: ']' :: rest) 5 w1
        have hu5t : ('-' :: ' ' :: '[' :: c :: ']' :: rest).take 5 =
            ['-', ' ', '[', c, ']'] := rfl
        have hu5 : ('-' :: ' ' :: '[' :: c :: ']' :: rest).drop 5 = rest := rfl
        rw [hu5t, hu5] at htadd
        have htw : rest.take w1 = rest.takeWhile isWs := by
          have hdec : rest.takeWhile isWs ++ rest.dropWhile isWs = rest :=
            List.takeWhile_append_dropWhile isWs rest
          have := List.take_left (rest.takeWhile isWs) (rest.dropWhile isWs)
          rwa [hdec] at this
        have hne : rest.takeWhile isWs ≠ [] := by
          intro he
          rw [hw1def, he] at hw1
          exact hw1 rfl
        refine ⟨['-', ' ', '[', c, ']'] ++ (rest.takeWhile isWs).dropLast,
          (rest.takeWhile isWs).getLast hne, ?_, ?_⟩
        · rw [htadd, htw, List.append_assoc,
            List.dropLast_append_getLast hne]
        · exact List.mem_takeWhile_imp (List.getLast_mem hne)

end Taskman

namespace Taskman

theorem simpleTodoStart_todoAt (t : Str) (h : simpleTodoStart t = true) :
    todoAt t = true := by
  unfold simpleTodoStart at h
  cases hm : matchLit "todo".toList t with
  | none => rw [hm] at h; cases h
  | some rest =>
    show (matchLit "todo".toList t).isSome = true
    rw [hm]
    rfl

theorem todoCount_pos_of_trim (x : Str) (h : todoAt (trim x) = true) :
    1 ≤ todoCount x := by
  have h1 : 1 ≤ todoCount (trim x) :=
    todoCount_pos_of_at (trim x) 0 (by rwa [List.drop_zero])
  exact le_trans h1 (todoCount_trim_le x)

theorem cbTodoIdx_occ (x : Str) (i g1 m0 : Nat)
    (h : cbTodoIdx x = some (i, g1, m0)) :
    todoAt (x.drop (i + g1)) = true := by
  have hat := cbTodoIdx_at x i g1 m0 h
  have hinv := cbTodoAt_inv (x.drop i) g1 m0 hat
  rw [← List.drop_drop g1 i x]
  exact hinv.1

/-- `normalizeToCheckboxFormat` leaves a line without any occurrence of
the `todo` keyword untouched. -/
theorem normalize_fixed_of_noTodo (today : Ymd) (x : Str)
    (h : todoCount x = 0) : normalizeToCheckboxFormat today x = x := by
  unfold normalizeToCheckboxFormat
  dsimp only
  by_cases hcb : (checkHead (trim x)).isSome
  · rw [if_pos hcb]
    cases hidx : cbTodoIdx x with
    | none =>
      unfold cbTodoStrip
      rw [hidx]
    | some t =>
      obtain ⟨i, g1, m0⟩ := t
      exfalso
      have hocc := cbTodoIdx_occ x i g1 m0 hidx
      have := todoCount_pos_of_at x (i + g1) hocc
      omega
  · rw [if_neg hcb]
    by_cases hst : simpleTodoStart (trim x) = true
    · exfalso
      have hta := simpleTodoStart_todoAt (trim x) hst
      have := todoCount_pos_of_trim x hta
      omega
    · rw [if_neg hst]

end Taskman

namespace Taskman

theorem todoCount_branch2 (lw X : Str) (hlw : ∀ c ∈ lw, isWs c = true)
    (hX : todoCount X = 0) :
    todoCount (lw ++ "- [ ] ".toList ++ X) = 0 := by
  have hpre : todoCount (lw ++ "- [ ]".toList) = 0 := by
    apply todoCount_zero_of_no_t
    intro c hc
    rcases List.mem_append.mp hc with hm | hm
    · exact lowerEq_of_ws c 't' (hlw c hm) (by decide) (by decide)
    · have hm' : c ∈ ['-', ' ', '[', ' ', ']'] := hm
      fin_cases hm' <;> decide
  have hshape : lw ++ "- [ ] ".toList ++ X = (lw ++ "- [ ]".toList) ++ ' ' :: X := by
    simp
  rw [hshape]
  exact todoCount_append_ws _ _ ' ' (by decide) hpre hX

theorem todoCount_branch2_date (lw X D : Str) (hlw : ∀ c ∈ lw, isWs c = true)
    (hX : todoCount X = 0) (hD : todoCount D = 0) :
    todoCount (lw ++ "- [ ] ".toList ++ X ++ ' ' :: D) = 0 :=
  todoCount_append_ws (lw ++ "- [ ] ".toList ++ X) D ' ' (by decide)
    (todoCount_branch2 lw X hlw hX) hD

end Taskman

namespace Taskman

/-- C7 (amended): `normalizeToCheckboxFormat` is idempotent on every line
containing at most one occurrence of the keyword `todo`
(case-insensitively).  On such a line, one application leaves either the
line itself or a line with no remaining `todo` keyword, and the second
application is the identity on both. -/
theorem normalizeToCheckboxFormat_idempotent_of_single_todo (today : Ymd)
    (line : Str) (h : todoCount line ≤ 1) :
    normalizeToCheckboxFormat today (normalizeToCheckboxFormat today line) =
      normalizeToCheckboxFormat today line := by
  by_cases hcb : (checkHead (trim line)).isSome
  · have hbr : normalizeToCheckboxFormat today line = cbTodoStrip line := by
      unfold normalizeToCheckboxFormat
      dsimp only
      rw [if_pos hcb]
    cases hidx : cbTodoIdx line with
    | none =>
      have hfix : cbTodoStrip line = line := by
        unfold cbTodoStrip
        rw [hidx]
      rw [hbr, hfix, hbr, hfix]
    | some t =>
      obtain ⟨i, g1, m0⟩ := t
      have hout : cbTodoStrip line = line.take (i + g1) ++ line.drop (i + m0) := by
        unfold cbTodoStrip
        rw [hidx]
      have hat := cbTodoIdx_at line i g1 m0 hidx
      obtain ⟨htodo, hlt, W, sep, htk, hsep⟩ := cbTodoAt_inv (line.drop i) g1 m0 hat
      have hocc : todoAt (line.drop (i + g1)) = true := by
        rw [← List.drop_drop g1 i line]
        exact htodo
      have hpre : todoCount (line.take (i + g1)) = 0 := by
        rw [todoCount_zero_iff]
        intro q
        cases hx : todoAt ((line.take (i + g1)).drop q) with
        | false => rfl
        | true =>
          exfalso
          have hq4 : 4 ≤ ((line.take (i + g1)).drop q).length := todoAt_length _ hx
          have hlen : ((line.take (i + g1)).drop q).length =
              min (i + g1) line.length - q := by
            simp [List.length_drop, List.length_take]
          have hqlt : q < i + g1 := by omega
          have hdt : (line.take (i + g1)).drop q =
              (line.drop q).take (i + g1 - q) := List.drop_take (i + g1) q line
          rw [hdt] at hx
          have hocc' : todoAt (line.drop q) = true := todoAt_of_take _ _ hx
          have h2 := todoCount_two line q (i + g1) hqlt hocc' hocc
          omega
      have hsuf : todoCount (line.drop (i + m0)) = 0 := by
        rw [todoCount_zero_iff]
        intro q
        cases hx : todoAt ((line.drop (i + m0)).drop q) with
        | false => rfl
        | true =>
          exfalso
          rw [List.drop_drop] at hx
          have h2 := todoCount_two line (i + g1) (i + m0 + q) (by omega) hocc hx
          omega
      have htake : line.take (i + g1) = (line.take i ++ W) ++ [sep] := by
        rw [List.take_add, htk, ← List.append_assoc]
      have hA : todoCount (line.take i ++ W) = 0 := by
        have hlen := List.take_left (line.take i ++ W) [sep]
        rw [← htake] at hlen
        have hle := todoCount_take_le (line.take (i + g1)) (line.take i ++ W).length
        rw [hlen, hpre] at hle
        omega
      have hO : todoCount (line.take (i + g1) ++ line.drop (i + m0)) = 0 := by
        rw [htake, List.append_assoc]
        exact todoCount_append_ws (line.take i ++ W) (line.drop (i + m0)) sep hsep
          hA hsuf
      rw [hbr, hout]
      exact normalize_fixed_of_noTodo today _ hO
  · by_cases hst : simpleTodoStart (trim line) = true
    · have hst' := hst
      unfold simpleTodoStart at hst'
      cases hm : matchLit "todo".toList (trim line) with
      | none =>
        rw [hm] at hst'
        cases hst'
      | some rest =>
        rw [hm] at hst'
        dsimp only at hst'
        split_ifs at hst' with hw0
        have htta : todoAt (trim line) = true := simpleTodoStart_todoAt _ hst
        have hwt : dropTodoKeyword (trim line) =
            rest.drop (rest.takeWhile isWs).length := by
          unfold dropTodoKeyword
          rw [hm]
          dsimp only
          rw [if_neg hw0]
        have hrest : rest = (trim line).drop 4 := by
          have hd := matchLit_some_drop "todo".toList (trim line) rest hm
          have hlen4 : ("todo".toList).length = 4 := rfl
          rw [hlen4] at hd
          exact hd
        obtain ⟨n, hdtk⟩ :
            ∃ n, dropTodoKeyword (trim line) = (trim line).drop (4 + n) := by
          refine ⟨(rest.takeWhile isWs).length, ?_⟩
          rw [hwt, hrest]
          exact List.drop_drop _ 4 _
        have hwt0 : todoCount (dropTodoKeyword (trim line)) = 0 := by
          rw [hdtk, todoCount_zero_iff]
          intro q
          cases hx : todoAt (((trim line).drop (4 + n)).drop q) with
          | false => rfl
          | true =>
            exfalso
            rw [List.drop_drop] at hx
            have h2 := todoCount_two (trim line) 0 (4 + n + q) (by omega)
              (by rwa [List.drop_zero]) hx
            have hle := todoCount_trim_le line
            omega
        obtain ⟨date, rem, hpd⟩ :
            ∃ a b, parseNaturalDate today (dropTodoKeyword (trim line)) = (a, b) :=
          ⟨_, _, rfl⟩
        have hrem0 : todoCount rem = 0 := by
          have hr := parseNaturalDate_remaining_noTodo today
            (dropTodoKeyword (trim line)) hwt0
          rw [hpd] at hr
          exact hr
        have hlw : ∀ c ∈ line.takeWhile isWs, isWs c = true := by
          intro c hc
          exact List.mem_takeWhile_imp hc
        cases date with
        | none =>
          have hbr2 : normalizeToCheckboxFormat today line =
              line.takeWhile isWs ++ "- [ ] ".toList ++
                dropTodoKeyword (trim line) := by
            unfold normalizeToCheckboxFormat
            dsimp only
            rw [if_neg hcb, if_pos hst, hpd]
          rw [hbr2]
          exact normalize_fixed_of_noTodo today _
            (todoCount_branch2 _ _ hlw hwt0)
        | some dt =>
          have hbr2 : normalizeToCheckboxFormat today line =
              line.takeWhile isWs ++ "- [ ] ".toList ++ rem ++
                ' ' :: formatDateCompact dt := by
            unfold normalizeToCheckboxFormat
            dsimp only
            rw [if_neg hcb, if_pos hst, hpd]
          rw [hbr2]
          exact normalize_fixed_of_noTodo today _
            (todoCount_branch2_date _ _ _ hlw hrem0
              (todoCount_formatDateCompact dt))
    · have hbr : normalizeToCheckboxFormat today line = line := by
        unfold normalizeToCheckboxFormat
        dsimp only
        rw [if_neg hcb, if_neg hst]
      rw [hbr, hbr]

end Taskman

namespace Taskman

/-- Witness for the C7 amended theorem at a concrete single-`todo` line. -/
theorem normalizeToCheckboxFormat_idempotent_witness :
    todoCount "- [ ] todo buy milk".toList ≤ 1 ∧
      normalizeToCheckboxFormat ⟨2026, 1, 15⟩
          (normalizeToCheckboxFormat ⟨2026, 1, 15⟩ "- [ ] todo buy milk".toList) =
        normalizeToCheckboxFormat ⟨2026, 1, 15⟩ "- [ ] todo buy milk".toList :=
  ⟨by decide,
    normalizeToCheckboxFormat_idempotent_of_single_todo ⟨2026, 1, 15⟩
      "- [ ] todo buy milk".toList (by decide)⟩

end Taskman
